import Mathlib

/-!
Verification development for the cargo-workspace-version tool
(src/src/main.rs).  The tool synchronizes one version string across a
cargo workspace: the root manifest and each member manifest.

The embedding below models the fragment of toml_edit that the tool
touches (values, items, tables, inline tables) and translates the
functions of main.rs one by one: check_version, is_workspace_true,
update_dep_ver, the root processing, the per-member processing, the
member loop and the final exit decision.  Fallible paths are modelled
with an Outcome type distinguishing recoverable process errors
(anyhow bail and the question-mark operator) from panics (unwrap and
expect).  Each Rust match on an intermediate value becomes a small
helper applied to that value so that every branch point is a top
level pattern match; Outcome.bind models the question-mark operator.
Error message texts follow the source with punctuation simplified.
-/

set_option autoImplicit false

namespace Cwv

/-- A toml_edit Value: the scalar shapes the tool can meet. -/
inductive Value where
  | str (s : String)
  | boolean (b : Bool)
  | integer (n : Int)
  | array (elems : List Value)
  | inlineTable (entries : List (String × Value))

/-- A toml_edit Item: a value, a standard table, or an array of tables. -/
inductive Item where
  | value (v : Value)
  | table (entries : List (String × Item))
  | arrayOfTables

/-- Value::as_str from toml_edit: some only for string scalars. -/
def Value.as_str : Value → Option String
  | .str s => some s
  | _ => none

/-- Lookup in a standard table (first binding wins, as keys are unique). -/
def tblGet : List (String × Item) → String → Option Item
  | [], _ => none
  | (k, it) :: rest, key => if k = key then some it else tblGet rest key

/-- Lookup in an inline table. -/
def inlGet : List (String × Value) → String → Option Value
  | [], _ => none
  | (k, v) :: rest, key => if k = key then some v else inlGet rest key

/-- Replace the value bound to a key in a standard table. -/
def tblSet : List (String × Item) → String → Item → List (String × Item)
  | [], _, _ => []
  | (k, it) :: rest, key, nit =>
    if k = key then (k, nit) :: rest else (k, it) :: tblSet rest key nit

/-- Replace the value bound to a key in an inline table. -/
def inlSet : List (String × Value) → String → Value → List (String × Value)
  | [], _, _ => []
  | (k, v) :: rest, key, nv =>
    if k = key then (k, nv) :: rest else (k, v) :: inlSet rest key nv

/-- Item::get of toml_edit: table lookup, also through an inline table
(whose entries surface as Item::Value). -/
def Item.get : Item → String → Option Item
  | .table kvs, key => tblGet kvs key
  | .value (.inlineTable kvs), key => (inlGet kvs key).map Item.value
  | _, _ => none

/-- Writing a scalar back through the location Item.get found:
models the in-place mutation through a mutable reference. -/
def Item.setVal : Item → String → Value → Item
  | .table kvs, key, nv => .table (tblSet kvs key (.value nv))
  | .value (.inlineTable kvs), key, nv => .value (.inlineTable (inlSet kvs key nv))
  | it, _, _ => it

/-- Item::as_array: some only for an array value. -/
def Item.as_array : Item → Option (List Value)
  | .value (.array vs) => some vs
  | _ => none

/-- Item::as_inline_table of toml_edit: some only for an inline table value. -/
def Item.as_inline_table : Item → Option (List (String × Value))
  | .value (.inlineTable kvs) => some kvs
  | _ => none

/-- is_workspace_true of main.rs given the result of the workspace lookup. -/
def isWorkspaceTrueAt : Option Item → Bool
  | some (.value (.boolean b)) => b
  | _ => false

/-- is_workspace_true of main.rs: the table has a boolean
workspace entry set to true. -/
def is_workspace_true (tbl : List (String × Item)) : Bool :=
  isWorkspaceTrueAt (tblGet tbl "workspace")

/-- The two subcommands of the CLI. -/
inductive SubCommand where
  | update (newver : String)
  | check (newver : String)

/-- SubCommand::version: the raw positional version argument. -/
def SubCommand.version : SubCommand → String
  | .update newver => newver
  | .check newver => newver

/-- The parsed command line (the hidden cargo argument is irrelevant). -/
structure Args where
  cmd : SubCommand
  quiet : Bool

/-- str::strip_prefix with the character v: removes one leading v
if present, otherwise leaves the string alone. -/
def stripLeadingV (s : String) : String :=
  match s.data with
  | 'v' :: rest => String.mk rest
  | _ => s

/-- Args::version: the version without any leading v. -/
def Args.version (a : Args) : String := stripLeadingV a.cmd.version

/-- Args::write: true in update mode. -/
def Args.write (a : Args) : Bool :=
  match a.cmd with
  | .update _ => true
  | .check _ => false

/-- Args::check: true in check mode. -/
def Args.check (a : Args) : Bool :=
  match a.cmd with
  | .update _ => false
  | .check _ => true

/-- Result of a fallible step: ok, a recoverable error (anyhow), or a
process panic (unwrap / expect). -/
inductive Outcome (α : Type) where
  | ok (a : α)
  | error (msg : String)
  | panic (msg : String)

/-- Error propagation of the question-mark operator: an error or a
panic short-circuits the rest of the computation. -/
def Outcome.bind {α β : Type} : Outcome α → (α → Outcome β) → Outcome β
  | .ok a, f => f a
  | .error m, _ => .error m
  | .panic m, _ => .panic m

/-- Functorial action on the ok branch. -/
def Outcome.map {α β : Type} (f : α → β) : Outcome α → Outcome β
  | .ok a => .ok (f a)
  | .error m => .error m
  | .panic m => .panic m

/-- check_version of main.rs: if the located value is a string different
from the target, overwrite it with the target and report a change;
otherwise leave it alone.  Returns the resulting value and the flag. -/
def check_version (v : Value) (target : String) : Value × Bool :=
  match v.as_str with
  | some old => if old ≠ target then (Value.str target, true) else (v, false)
  | none => (v, false)

/-- The body of update_dep_ver once the version attribute has been
looked up: unwrap panics on a missing attribute, otherwise the value
is checked and written back into the inline table when it changed. -/
def updateDepVerAt (dep : List (String × Value)) (target : String) :
    Option Value → Outcome (List (String × Value) × Bool)
  | none => .panic "called Option unwrap on a None value"
  | some v =>
    .ok (if (check_version v target).2 then inlSet dep "version" (check_version v target).1
         else dep,
         (check_version v target).2)

/-- update_dep_ver of main.rs: fetch the version attribute of the
dependency inline table and check_version it. -/
def update_dep_ver (dep : List (String × Value)) (target : String) :
    Outcome (List (String × Value) × Bool) :=
  updateDepVerAt dep target (inlGet dep "version")

/-- The if-let on as_inline_table in the dependency loop: an inline
table is updated through update_dep_ver, any other shape is skipped. -/
def processEligibleDep (target : String) (it : Item) :
    Option (List (String × Value)) → Outcome (Item × Bool)
  | some dep =>
    Outcome.bind (update_dep_ver dep target) fun r => .ok (.value (.inlineTable r.1), r.2)
  | none => .ok (it, false)

/-- One entry of the dependencies table: only entries whose key is a
declared member and whose value is an inline table are touched. -/
def processDepEntry (lookup : List String) (target k : String) (it : Item) :
    Outcome (Item × Bool) :=
  if lookup.contains k then processEligibleDep target it it.as_inline_table
  else .ok (it, false)

/-- The loop over the dependencies table of one member. -/
def processDeps (lookup : List String) (target : String) :
    List (String × Item) → Outcome (List (String × Item) × Bool)
  | [] => .ok ([], false)
  | (k, it) :: rest =>
    Outcome.bind (processDepEntry lookup target k it) fun e =>
      Outcome.bind (processDeps lookup target rest) fun p =>
        .ok ((k, e.1) :: p.1, e.2 || p.2)

/-- The member version match of main.rs applied to the located version
item: a string value is checked and possibly rewritten; a table with
workspace equal true is accepted only when the workspace root declared
a version; anything else is fatal. -/
def checkVersionAt (pkg : Item) (path : String) (fwv : Bool) (target : String) :
    Option Item → Outcome (Item × Bool)
  | none => .error ("No version in " ++ path)
  | some (.value v) =>
    .ok (if (check_version v target).2 then pkg.setVal "version" (check_version v target).1
         else pkg,
         (check_version v target).2)
  | some (.table tbl) =>
    if is_workspace_true tbl && fwv then .ok (pkg, false)
    else .error ("version in " ++ path ++ " was not a string")
  | some .arrayOfTables => .error ("version in " ++ path ++ " was not a string")

/-- Locating and handling the version field of one member package. -/
def checkMemberVersion (pkg : Item) (path : String) (fwv : Bool) (target : String) :
    Outcome (Item × Bool) :=
  checkVersionAt pkg path fwv target (pkg.get "version")

/-- One member manifest as the tool reads it: the package item and the
dependencies item, when present. -/
structure MemberDoc where
  package : Option Item
  dependencies : Option Item

/-- The dependencies part of member processing: only a standard
dependencies table is iterated, any other shape is left alone. -/
def processMemberDeps (pkg' : Item) (ch1 : Bool) (lookup : List String) (target : String) :
    Option Item → Outcome (MemberDoc × Bool)
  | some (.table deps) =>
    Outcome.bind (processDeps lookup target deps) fun dp =>
      .ok (⟨some pkg', some (.table dp.1)⟩, ch1 || dp.2)
  | none => .ok (⟨some pkg', none⟩, ch1)
  | some (.value v) => .ok (⟨some pkg', some (.value v)⟩, ch1)
  | some .arrayOfTables => .ok (⟨some pkg', some .arrayOfTables⟩, ch1)

/-- Member processing once the package section has been looked up. -/
def processMemberPkg (doc : MemberDoc) (path : String) (lookup : List String)
    (fwv : Bool) (target : String) : Option Item → Outcome (MemberDoc × Bool)
  | none => .error ("no [package] section in " ++ path)
  | some pkg =>
    Outcome.bind (checkMemberVersion pkg path fwv target) fun pv =>
      processMemberDeps pv.1 pv.2 lookup target doc.dependencies

/-- Processing one loaded member manifest: check the package version,
then walk the dependencies table when it is a standard table. -/
def processMemberDoc (doc : MemberDoc) (path : String) (lookup : List String)
    (fwv : Bool) (target : String) : Outcome (MemberDoc × Bool) :=
  processMemberPkg doc path lookup fwv target doc.package

/-- The workspace section of the root manifest: the items the tool
looks up in it. -/
structure RootWorkspace where
  package : Option Item
  members : Option Item

/-- The root manifest. -/
structure RootDoc where
  workspace : Option RootWorkspace

/-- Result of processing the root: whether a workspace version was
found, whether it was rewritten, and the resulting document. -/
structure RootResult where
  fwv : Bool
  rootUpdated : Bool
  doc : RootDoc

/-- Handling of the located workspace.package.version item: absence is
fine, a value is checked (and the flag for found version is set), any
other item shape is fatal. -/
def processRootVersion (doc : RootDoc) (ws : RootWorkspace) (pkg : Item) (target : String) :
    Option Item → Outcome RootResult
  | none => .ok ⟨false, false, doc⟩
  | some (.value v) =>
    .ok ⟨true, (check_version v target).2,
      if (check_version v target).2
      then ⟨some ⟨some (pkg.setVal "version" (check_version v target).1), ws.members⟩⟩
      else doc⟩
  | some (.table _) => .error "version in [workspace.package] was not a string"
  | some .arrayOfTables => .error "version in [workspace.package] was not a string"

/-- Root processing once the workspace section is at hand: a missing
workspace.package just means no shared version. -/
def processRootPkg (doc : RootDoc) (ws : RootWorkspace) (target : String) :
    Option Item → Outcome RootResult
  | none => .ok ⟨false, false, doc⟩
  | some pkg => processRootVersion doc ws pkg target (pkg.get "version")

/-- Root processing given the looked-up workspace section: absence of
the section is fatal. -/
def processRootWs (doc : RootDoc) (target : String) :
    Option RootWorkspace → Outcome RootResult
  | none => .error "No [workspace] section in top level"
  | some ws => processRootPkg doc ws target ws.package

/-- The root processing of main.rs. -/
def processRoot (doc : RootDoc) (target : String) : Outcome RootResult :=
  processRootWs doc target doc.workspace

/-- One member of the members array: expect panics on a non-string. -/
def memberName : Option String → Outcome String
  | none => .panic "member was not a string"
  | some s => .ok s

/-- Collect the members array into strings. -/
def membersAsStrings : List Value → Outcome (List String)
  | [] => .ok []
  | v :: rest =>
    Outcome.bind (memberName v.as_str) fun s =>
      Outcome.bind (membersAsStrings rest) fun ss => .ok (s :: ss)

/-- The members item must be an array. -/
def extractMembersArr : Option (List Value) → Outcome (List String)
  | none => .error "members must be an array"
  | some vs => membersAsStrings vs

/-- The members item must be present. -/
def extractMembersItem : Option Item → Outcome (List String)
  | none => .error "No members in [workspace] section"
  | some it => extractMembersArr it.as_array

/-- The members lookup requires the workspace section. -/
def extractMembersWs : Option RootWorkspace → Outcome (List String)
  | none => .error "No [workspace] section in top level"
  | some ws => extractMembersItem ws.members

/-- Extract the member identifiers from the root document. -/
def extractMembers (doc : RootDoc) : Outcome (List String) :=
  extractMembersWs doc.workspace

/-- Lookup of a member manifest on disk by path. -/
def lookupFile : List (String × MemberDoc) → String → Option MemberDoc
  | [], _ => none
  | (p, d) :: rest, path => if p = path then some d else lookupFile rest path

/-- fs::write of a member manifest: replace the document at the path. -/
def setFile : List (String × MemberDoc) → String → MemberDoc → List (String × MemberDoc)
  | [], _, _ => []
  | (p, d) :: rest, path, doc =>
    if p = path then (p, doc) :: rest else (p, d) :: setFile rest path doc

/-- State threaded through the member loop: the member files on disk,
the list of paths written so far, and the difference flag. -/
structure PassState where
  files : List (String × MemberDoc)
  writes : List String
  someDiff : Bool

/-- One iteration of the member loop once the manifest has been read:
process it, write it back when something changed and the mode is
write, and fold the changed flag into the difference flag. -/
def processMemberRead (writeMode : Bool) (lookup : List String) (fwv : Bool)
    (target : String) (st : PassState) (path : String) :
    Option MemberDoc → Outcome PassState
  | none => .error ("Cannot read " ++ path)
  | some doc =>
    Outcome.bind (processMemberDoc doc path lookup fwv target) fun r =>
      .ok (if r.2 && writeMode
           then ⟨setFile st.files path r.1, st.writes ++ [path], st.someDiff || r.2⟩
           else ⟨st.files, st.writes, st.someDiff || r.2⟩)

/-- One iteration of the member loop: resolve the path and read the
manifest from the current disk state. -/
def processOneMember (writeMode : Bool) (lookup : List String) (fwv : Bool)
    (target : String) (st : PassState) (name : String) : Outcome PassState :=
  processMemberRead writeMode lookup fwv target st (name ++ "/Cargo.toml")
    (lookupFile st.files (name ++ "/Cargo.toml"))

/-- The member loop. -/
def processMembers (writeMode : Bool) (lookup : List String) (fwv : Bool)
    (target : String) : PassState → List String → Outcome PassState
  | st, [] => .ok st
  | st, n :: rest =>
    Outcome.bind (processOneMember writeMode lookup fwv target st n) fun st' =>
      processMembers writeMode lookup fwv target st' rest

/-- The workspace on disk: the root manifest and the member manifests
keyed by path. -/
structure FS where
  root : RootDoc
  files : List (String × MemberDoc)

/-- Observable result of a completed pass: the root and member files
left on disk, the paths written, and the difference flag. -/
structure RunResult where
  root : RootDoc
  files : List (String × MemberDoc)
  writes : List String
  someDiff : Bool

/-- The full pass of main: process the root, extract the members from
the same in-memory document, loop over the members threading the disk
state, and finally write the root when it changed and the mode is
write (strictly after the members). -/
def processPass (target : String) (writeMode : Bool) (fs : FS) : Outcome RunResult :=
  Outcome.bind (processRoot fs.root target) fun rr =>
    Outcome.bind (extractMembers rr.doc) fun names =>
      Outcome.bind
        (processMembers writeMode names rr.fwv target ⟨fs.files, [], rr.rootUpdated⟩ names)
        fun st =>
          .ok (if rr.rootUpdated && writeMode
               then ⟨rr.doc, st.files, st.writes ++ ["Cargo.toml"], st.someDiff⟩
               else ⟨fs.root, st.files, st.writes, st.someDiff⟩)

/-- The whole program: the pass, then the final exit decision of main;
in check mode a recorded difference becomes the aggregate failure. -/
def run (args : Args) (fs : FS) : Outcome RunResult :=
  Outcome.bind (processPass args.version args.write fs) fun r =>
    if args.check && r.someDiff then .error "There were differences" else .ok r

/-! ## Basic lemmas about check_version -/

/-- check_version is idempotent: re-checking its output changes nothing. -/
theorem check_version_idem (v : Value) (t : String) :
    check_version (check_version v t).1 t = ((check_version v t).1, false) := by
  cases v <;> simp [check_version, Value.as_str]
  case str s => by_cases h : s = t <;> simp [h, check_version, Value.as_str]

/-- When the changed flag is false the value is untouched. -/
theorem check_version_of_not_changed (v : Value) (t : String)
    (h : (check_version v t).2 = false) : (check_version v t).1 = v := by
  cases v <;> simp_all [check_version, Value.as_str]
  case str s => by_cases hs : s = t <;> simp_all

/-- The pair form of check_version when nothing changed. -/
theorem check_version_eq_of_not_changed (v : Value) (t : String)
    (h : (check_version v t).2 = false) : check_version v t = (v, false) := by
  have h1 := check_version_of_not_changed v t h
  cases hcv : check_version v t
  simp only [hcv] at h1 h
  simp [h1, h]

/-- The mismatch observation used for the aggregate failure signal:
true exactly when the value is a string different from the target. -/
def valueIsMismatch (v : Value) (target : String) : Bool :=
  match v.as_str with
  | some old => if old ≠ target then true else false
  | none => false

/-- The changed flag of check_version equals the mismatch observation. -/
theorem check_version_changed (v : Value) (t : String) :
    (check_version v t).2 = valueIsMismatch v t := by
  cases v <;> simp [check_version, valueIsMismatch, Value.as_str]
  case str s => by_cases h : s = t <;> simp [h]

/-- A non-string value is left alone and reports no change. -/
theorem check_version_of_not_str (v : Value) (t : String) (h : v.as_str = none) :
    check_version v t = (v, false) := by
  simp [check_version, h]

/-! ## Lookup and update lemmas for table shapes -/

theorem tblGet_tblSet_self {kvs : List (String × Item)} {key : String} {x : Item}
    (h : tblGet kvs key = some x) (nit : Item) :
    tblGet (tblSet kvs key nit) key = some nit := by
  induction kvs with
  | nil => simp [tblGet] at h
  | cons kv rest ih =>
    obtain ⟨k, it⟩ := kv
    by_cases hk : k = key <;> simp_all [tblGet, tblSet]

theorem inlGet_inlSet_self {kvs : List (String × Value)} {key : String} {x : Value}
    (h : inlGet kvs key = some x) (nv : Value) :
    inlGet (inlSet kvs key nv) key = some nv := by
  induction kvs with
  | nil => simp [inlGet] at h
  | cons kv rest ih =>
    obtain ⟨k, v⟩ := kv
    by_cases hk : k = key <;> simp_all [inlGet, inlSet]

/-- After writing a scalar through the located position, reading the
position yields the new scalar. -/
theorem Item.get_setVal {it : Item} {key : String} {v : Value}
    (h : it.get key = some (.value v)) (nv : Value) :
    (it.setVal key nv).get key = some (.value nv) := by
  cases it with
  | table kvs =>
    simp [Item.get, Item.setVal] at h ⊢
    exact tblGet_tblSet_self h _
  | value w =>
    cases w with
    | inlineTable kvs =>
      simp only [Item.get, Item.setVal] at h ⊢
      cases hx : inlGet kvs key with
      | none => rw [hx] at h; simp at h
      | some x => rw [inlGet_inlSet_self hx nv]; rfl
    | str s => simp [Item.get] at h
    | boolean b => simp [Item.get] at h
    | integer n => simp [Item.get] at h
    | array es => simp [Item.get] at h
  | arrayOfTables => simp [Item.get] at h

/-! ## Lemmas about dependency processing -/

theorem update_dep_ver_idem {dep dep' : List (String × Value)} {ch : Bool} {t : String}
    (h : update_dep_ver dep t = .ok (dep', ch)) :
    update_dep_ver dep' t = .ok (dep', false) := by
  unfold update_dep_ver at h ⊢
  cases hx : inlGet dep "version" with
  | none => rw [hx] at h; simp [updateDepVerAt] at h
  | some v =>
    rw [hx] at h
    simp only [updateDepVerAt, Outcome.ok.injEq, Prod.mk.injEq] at h
    obtain ⟨hd, hc⟩ := h
    by_cases hch : (check_version v t).2 = true
    · rw [if_pos hch] at hd
      subst hd
      rw [inlGet_inlSet_self hx]
      simp [updateDepVerAt, check_version_idem v t]
    · rw [if_neg hch] at hd
      subst hd
      rw [hx]
      simp [updateDepVerAt, check_version_eq_of_not_changed v t (by simpa using hch)]

theorem update_dep_ver_of_not_changed {dep dep' : List (String × Value)} {t : String}
    (h : update_dep_ver dep t = .ok (dep', false)) : dep' = dep := by
  unfold update_dep_ver at h
  cases hx : inlGet dep "version" with
  | none => rw [hx] at h; simp [updateDepVerAt] at h
  | some v =>
    rw [hx] at h
    simp only [updateDepVerAt, Outcome.ok.injEq, Prod.mk.injEq] at h
    obtain ⟨hd, hc⟩ := h
    rw [if_neg (by simp [← hc])] at hd
    exact hd.symm

theorem update_dep_ver_changed {dep dep' : List (String × Value)} {ch : Bool} {t : String}
    (h : update_dep_ver dep t = .ok (dep', ch)) :
    ∃ v, inlGet dep "version" = some v ∧ ch = valueIsMismatch v t := by
  unfold update_dep_ver at h
  cases hx : inlGet dep "version" with
  | none => rw [hx] at h; simp [updateDepVerAt] at h
  | some v =>
    rw [hx] at h
    simp only [updateDepVerAt, Outcome.ok.injEq, Prod.mk.injEq] at h
    exact ⟨v, rfl, by rw [← h.2, check_version_changed]⟩

theorem processDepEntry_idem {l : List String} {t k : String} {it it' : Item} {ch : Bool}
    (h : processDepEntry l t k it = .ok (it', ch)) :
    processDepEntry l t k it' = .ok (it', false) := by
  unfold processDepEntry at h ⊢
  by_cases hk : l.contains k
  case neg => rw [if_neg hk]
  case pos =>
    rw [if_pos hk] at h ⊢
    cases hai : it.as_inline_table with
    | none =>
      rw [hai] at h
      simp only [processEligibleDep, Outcome.ok.injEq, Prod.mk.injEq] at h
      obtain ⟨h1, h2⟩ := h
      subst h1
      rw [hai]
      simp [processEligibleDep]
    | some dep =>
      rw [hai] at h
      simp only [processEligibleDep] at h
      cases hu : update_dep_ver dep t with
      | ok p =>
        obtain ⟨dep', c⟩ := p
        rw [hu] at h
        simp only [Outcome.bind, Outcome.ok.injEq, Prod.mk.injEq] at h
        obtain ⟨h1, h2⟩ := h
        subst h1
        simp [Item.as_inline_table, processEligibleDep, update_dep_ver_idem hu, Outcome.bind]
      | error m => rw [hu] at h; simp [Outcome.bind] at h
      | panic m => rw [hu] at h; simp [Outcome.bind] at h

theorem processDepEntry_of_not_changed {l : List String} {t k : String} {it it' : Item}
    (h : processDepEntry l t k it = .ok (it', false)) : it' = it := by
  unfold processDepEntry at h
  by_cases hk : l.contains k
  case neg =>
    rw [if_neg hk] at h
    simp only [Outcome.ok.injEq, Prod.mk.injEq] at h
    exact h.1.symm
  case pos =>
    rw [if_pos hk] at h
    cases hai : it.as_inline_table with
    | none =>
      rw [hai] at h
      simp only [processEligibleDep, Outcome.ok.injEq, Prod.mk.injEq] at h
      exact h.1.symm
    | some dep =>
      rw [hai] at h
      simp only [processEligibleDep] at h
      cases hu : update_dep_ver dep t with
      | ok p =>
        obtain ⟨dep', c⟩ := p
        rw [hu] at h
        simp only [Outcome.bind, Outcome.ok.injEq, Prod.mk.injEq] at h
        obtain ⟨h1, h2⟩ := h
        subst h2
        rw [← h1, update_dep_ver_of_not_changed hu]
        cases it with
        | value v =>
          cases v <;> simp_all [Item.as_inline_table]
        | table kvs => simp [Item.as_inline_table] at hai
        | arrayOfTables => simp [Item.as_inline_table] at hai
      | error m => rw [hu] at h; simp [Outcome.bind] at h
      | panic m => rw [hu] at h; simp [Outcome.bind] at h

/-- The mismatch observation for a located dependency version attribute. -/
def depEntryVersionMismatch (target : String) : Option Value → Bool
  | some v => valueIsMismatch v target
  | none => false

/-- The mismatch observation for the shape of a dependency value. -/
def depEntryShapeMismatch (target : String) : Option (List (String × Value)) → Bool
  | some dep => depEntryVersionMismatch target (inlGet dep "version")
  | none => false

/-- The mismatch observation for one dependency entry. -/
def depEntryMismatch (lookup : List String) (target k : String) (it : Item) : Bool :=
  lookup.contains k && depEntryShapeMismatch target it.as_inline_table

theorem processDepEntry_changed {l : List String} {t k : String} {it it' : Item} {ch : Bool}
    (h : processDepEntry l t k it = .ok (it', ch)) :
    ch = depEntryMismatch l t k it := by
  unfold processDepEntry at h
  unfold depEntryMismatch
  by_cases hk : l.contains k
  case pos =>
    rw [if_pos hk] at h
    rw [hk, Bool.true_and]
    cases hai : it.as_inline_table with
    | none =>
      rw [hai] at h
      simp only [processEligibleDep, Outcome.ok.injEq, Prod.mk.injEq] at h
      simp [depEntryShapeMismatch, h.2.symm]
    | some dep =>
      rw [hai] at h
      simp only [processEligibleDep] at h
      cases hu : update_dep_ver dep t with
      | ok p =>
        obtain ⟨dep', c⟩ := p
        rw [hu] at h
        simp only [Outcome.bind, Outcome.ok.injEq, Prod.mk.injEq] at h
        obtain ⟨v, hv, hc⟩ := update_dep_ver_changed hu
        simp [depEntryShapeMismatch, depEntryVersionMismatch, hv, ← h.2, hc]
      | error m => rw [hu] at h; simp [Outcome.bind] at h
      | panic m => rw [hu] at h; simp [Outcome.bind] at h
  case neg =>
    rw [if_neg hk] at h
    simp only [Outcome.ok.injEq, Prod.mk.injEq] at h
    simp only [Bool.not_eq_true] at hk
    rw [hk, ← h.2]
    simp

/-- The preservation relation of the dependency filter: keys are kept,
and an entry that is external or not an inline table is left alone. -/
def entryPreserved (lookup : List String) (a b : String × Item) : Prop :=
  b.1 = a.1 ∧ ((lookup.contains a.1 = false ∨ a.2.as_inline_table = none) → b = a)

theorem processDepEntry_frame {l : List String} {t k : String} {it it' : Item} {ch : Bool}
    (h : processDepEntry l t k it = .ok (it', ch)) :
    entryPreserved l (k, it) (k, it') := by
  refine ⟨rfl, ?_⟩
  intro hcond
  have hcond' : l.contains k = false ∨ it.as_inline_table = none := hcond
  unfold processDepEntry at h
  have hskip : it' = it → ((k, it') : String × Item) = (k, it) := by intro he; rw [he]
  rcases hcond' with hk | hsh
  · rw [if_neg (by rw [hk]; simp)] at h
    simp only [Outcome.ok.injEq, Prod.mk.injEq] at h
    exact hskip h.1.symm
  · by_cases hk : l.contains k
    · rw [if_pos hk] at h
      rw [hsh] at h
      simp only [processEligibleDep, Outcome.ok.injEq, Prod.mk.injEq] at h
      exact hskip h.1.symm
    · rw [if_neg hk] at h
      simp only [Outcome.ok.injEq, Prod.mk.injEq] at h
      exact hskip h.1.symm

/-! ## Lemmas about the dependencies loop -/

/-- The mismatch observation over a dependencies table. -/
def depsMismatch (lookup : List String) (target : String) : List (String × Item) → Bool
  | [] => false
  | (k, it) :: rest => depEntryMismatch lookup target k it || depsMismatch lookup target rest

theorem processDeps_idem {l : List String} {t : String} {ds ds' : List (String × Item)}
    {c : Bool} (h : processDeps l t ds = .ok (ds', c)) :
    processDeps l t ds' = .ok (ds', false) := by
  induction ds generalizing ds' c with
  | nil =>
    simp only [processDeps, Outcome.ok.injEq, Prod.mk.injEq] at h
    obtain ⟨h1, h2⟩ := h
    subst h1
    simp [processDeps]
  | cons kv rest ih =>
    obtain ⟨k, it⟩ := kv
    simp only [processDeps] at h
    cases he : processDepEntry l t k it with
    | ok e =>
      obtain ⟨it', ch⟩ := e
      rw [he] at h
      simp only [Outcome.bind] at h
      cases hr : processDeps l t rest with
      | ok p =>
        obtain ⟨rest', c2⟩ := p
        rw [hr] at h
        simp only [Outcome.bind, Outcome.ok.injEq, Prod.mk.injEq] at h
        obtain ⟨hds, hc⟩ := h
        subst hds
        simp only [processDeps]
        rw [processDepEntry_idem he]
        simp only [Outcome.bind]
        rw [ih hr]
        simp [Outcome.bind]
      | error m => rw [hr] at h; simp [Outcome.bind] at h
      | panic m => rw [hr] at h; simp [Outcome.bind] at h
    | error m => rw [he] at h; simp [Outcome.bind] at h
    | panic m => rw [he] at h; simp [Outcome.bind] at h

theorem processDeps_of_not_changed {l : List String} {t : String}
    {ds ds' : List (String × Item)}
    (h : processDeps l t ds = .ok (ds', false)) : ds' = ds := by
  induction ds generalizing ds' with
  | nil =>
    simp only [processDeps, Outcome.ok.injEq, Prod.mk.injEq] at h
    exact h.1.symm
  | cons kv rest ih =>
    obtain ⟨k, it⟩ := kv
    simp only [processDeps] at h
    cases he : processDepEntry l t k it with
    | ok e =>
      obtain ⟨it', ch⟩ := e
      rw [he] at h
      simp only [Outcome.bind] at h
      cases hr : processDeps l t rest with
      | ok p =>
        obtain ⟨rest', c2⟩ := p
        rw [hr] at h
        simp only [Outcome.bind, Outcome.ok.injEq, Prod.mk.injEq] at h
        obtain ⟨hds, hc⟩ := h
        obtain ⟨hch, hc2⟩ := Bool.or_eq_false_iff.mp hc
        subst hch
        have hr' : processDeps l t rest = .ok (rest', false) := by rw [hr, hc2]
        rw [← hds, processDepEntry_of_not_changed he, ih hr']
      | error m => rw [hr] at h; simp [Outcome.bind] at h
      | panic m => rw [hr] at h; simp [Outcome.bind] at h
    | error m => rw [he] at h; simp [Outcome.bind] at h
    | panic m => rw [he] at h; simp [Outcome.bind] at h

theorem processDeps_changed {l : List String} {t : String} {ds ds' : List (String × Item)}
    {c : Bool} (h : processDeps l t ds = .ok (ds', c)) : c = depsMismatch l t ds := by
  induction ds generalizing ds' c with
  | nil =>
    simp only [processDeps, Outcome.ok.injEq, Prod.mk.injEq] at h
    simp [depsMismatch, h.2.symm]
  | cons kv rest ih =>
    obtain ⟨k, it⟩ := kv
    simp only [processDeps] at h
    cases he : processDepEntry l t k it with
    | ok e =>
      obtain ⟨it', ch⟩ := e
      rw [he] at h
      simp only [Outcome.bind] at h
      cases hr : processDeps l t rest with
      | ok p =>
        obtain ⟨rest', c2⟩ := p
        rw [hr] at h
        simp only [Outcome.bind, Outcome.ok.injEq, Prod.mk.injEq] at h
        rw [depsMismatch, ← processDepEntry_changed he, ← ih hr, ← h.2]
      | error m => rw [hr] at h; simp [Outcome.bind] at h
      | panic m => rw [hr] at h; simp [Outcome.bind] at h
    | error m => rw [he] at h; simp [Outcome.bind] at h
    | panic m => rw [he] at h; simp [Outcome.bind] at h

theorem processDeps_frame {l : List String} {t : String} {ds ds' : List (String × Item)}
    {c : Bool} (h : processDeps l t ds = .ok (ds', c)) :
    List.Forall₂ (entryPreserved l) ds ds' := by
  induction ds generalizing ds' c with
  | nil =>
    simp only [processDeps, Outcome.ok.injEq, Prod.mk.injEq] at h
    rw [← h.1]
    exact List.Forall₂.nil
  | cons kv rest ih =>
    obtain ⟨k, it⟩ := kv
    simp only [processDeps] at h
    cases he : processDepEntry l t k it with
    | ok e =>
      obtain ⟨it', ch⟩ := e
      rw [he] at h
      simp only [Outcome.bind] at h
      cases hr : processDeps l t rest with
      | ok p =>
        obtain ⟨rest', c2⟩ := p
        rw [hr] at h
        simp only [Outcome.bind, Outcome.ok.injEq, Prod.mk.injEq] at h
        rw [← h.1]
        exact List.Forall₂.cons (processDepEntry_frame he) (ih hr)
      | error m => rw [hr] at h; simp [Outcome.bind] at h
      | panic m => rw [hr] at h; simp [Outcome.bind] at h
    | error m => rw [he] at h; simp [Outcome.bind] at h
    | panic m => rw [he] at h; simp [Outcome.bind] at h

/-! ## Lemmas about member version checking -/

/-- The mismatch observation for a located version item. -/
def pkgVersionMismatch (target : String) : Option Item → Bool
  | some (.value v) => valueIsMismatch v target
  | _ => false

/-- Unfolding equation: a missing version field is the MissingField error. -/
theorem checkVersionAt_none_eq (pkg : Item) (path : String) (fwv : Bool) (t : String) :
    checkVersionAt pkg path fwv t none = .error ("No version in " ++ path) := rfl

/-- Unfolding equation: a value is checked and written back on change. -/
theorem checkVersionAt_value_eq (pkg : Item) (path : String) (fwv : Bool) (t : String)
    (v : Value) :
    checkVersionAt pkg path fwv t (some (.value v)) =
      .ok (if (check_version v t).2 then pkg.setVal "version" (check_version v t).1 else pkg,
        (check_version v t).2) := rfl

/-- Unfolding equation: a table is the inheritance-marker test. -/
theorem checkVersionAt_table_eq (pkg : Item) (path : String) (fwv : Bool) (t : String)
    (tbl : List (String × Item)) :
    checkVersionAt pkg path fwv t (some (.table tbl)) =
      (if is_workspace_true tbl && fwv then Outcome.ok (pkg, false)
       else .error ("version in " ++ path ++ " was not a string")) := rfl

/-- Unfolding equation: an array of tables is a schema error. -/
theorem checkVersionAt_aot_eq (pkg : Item) (path : String) (fwv : Bool) (t : String) :
    checkVersionAt pkg path fwv t (some .arrayOfTables) =
      .error ("version in " ++ path ++ " was not a string") := rfl

theorem checkMemberVersion_idem {pkg pkg' : Item} {path : String} {fwv : Bool}
    {t : String} {ch : Bool}
    (h : checkMemberVersion pkg path fwv t = .ok (pkg', ch)) :
    checkMemberVersion pkg' path fwv t = .ok (pkg', false) := by
  unfold checkMemberVersion at h ⊢
  cases hg : pkg.get "version" with
  | none => rw [hg, checkVersionAt_none_eq] at h; exact Outcome.noConfusion h
  | some it =>
    rw [hg] at h
    cases it with
    | value v =>
      rw [checkVersionAt_value_eq] at h
      simp only [Outcome.ok.injEq, Prod.mk.injEq] at h
      obtain ⟨hp, hc⟩ := h
      by_cases hch : (check_version v t).2 = true
      · rw [if_pos hch] at hp
        subst hp
        rw [Item.get_setVal hg, checkVersionAt_value_eq]
        simp [check_version_idem v t]
      · rw [if_neg hch] at hp
        subst hp
        rw [hg, checkVersionAt_value_eq]
        simp [check_version_eq_of_not_changed v t (by simpa using hch)]
    | table tbl =>
      rw [checkVersionAt_table_eq] at h
      by_cases hw : is_workspace_true tbl && fwv
      · rw [if_pos hw] at h
        simp only [Outcome.ok.injEq, Prod.mk.injEq] at h
        obtain ⟨hp, hc⟩ := h
        subst hp
        rw [hg, checkVersionAt_table_eq, if_pos hw]
      · rw [if_neg hw] at h
        exact Outcome.noConfusion h
    | arrayOfTables =>
      rw [checkVersionAt_aot_eq] at h
      exact Outcome.noConfusion h

theorem checkMemberVersion_of_not_changed {pkg pkg' : Item} {path : String} {fwv : Bool}
    {t : String} (h : checkMemberVersion pkg path fwv t = .ok (pkg', false)) : pkg' = pkg := by
  unfold checkMemberVersion at h
  cases hg : pkg.get "version" with
  | none => rw [hg, checkVersionAt_none_eq] at h; exact Outcome.noConfusion h
  | some it =>
    rw [hg] at h
    cases it with
    | value v =>
      rw [checkVersionAt_value_eq] at h
      simp only [Outcome.ok.injEq, Prod.mk.injEq] at h
      obtain ⟨hp, hc⟩ := h
      rw [if_neg (by simp [← hc])] at hp
      exact hp.symm
    | table tbl =>
      rw [checkVersionAt_table_eq] at h
      by_cases hw : is_workspace_true tbl && fwv
      · rw [if_pos hw] at h
        simp only [Outcome.ok.injEq, Prod.mk.injEq] at h
        exact h.1.symm
      · rw [if_neg hw] at h
        exact Outcome.noConfusion h
    | arrayOfTables =>
      rw [checkVersionAt_aot_eq] at h
      exact Outcome.noConfusion h

theorem checkMemberVersion_changed {pkg pkg' : Item} {path : String} {fwv : Bool}
    {t : String} {ch : Bool}
    (h : checkMemberVersion pkg path fwv t = .ok (pkg', ch)) :
    ch = pkgVersionMismatch t (pkg.get "version") := by
  unfold checkMemberVersion at h
  cases hg : pkg.get "version" with
  | none => rw [hg, checkVersionAt_none_eq] at h; exact Outcome.noConfusion h
  | some it =>
    rw [hg] at h
    cases it with
    | value v =>
      rw [checkVersionAt_value_eq] at h
      simp only [Outcome.ok.injEq, Prod.mk.injEq] at h
      rw [← h.2, check_version_changed]
      exact rfl
    | table tbl =>
      rw [checkVersionAt_table_eq] at h
      by_cases hw : is_workspace_true tbl && fwv
      · rw [if_pos hw] at h
        simp only [Outcome.ok.injEq, Prod.mk.injEq] at h
        rw [← h.2]
        exact rfl
      · rw [if_neg hw] at h
        exact Outcome.noConfusion h
    | arrayOfTables =>
      rw [checkVersionAt_aot_eq] at h
      exact Outcome.noConfusion h

/-! ## Lemmas about whole-member processing -/

/-- The mismatch observation for the dependencies item of a member. -/
def memberDepsMismatch (lookup : List String) (target : String) : Option Item → Bool
  | some (.table deps) => depsMismatch lookup target deps
  | _ => false

/-- The mismatch observation for a whole member manifest. -/
def memberPkgMismatch (target : String) : Option Item → Bool
  | some pkg => pkgVersionMismatch target (pkg.get "version")
  | none => false

/-- The mismatch observation for one loaded member document. -/
def memberDocMismatch (lookup : List String) (target : String) (doc : MemberDoc) : Bool :=
  memberPkgMismatch target doc.package || memberDepsMismatch lookup target doc.dependencies

/-- The preservation relation on dependencies items: tables are related
pointwise by the dependency filter, everything else is unchanged. -/
def depsOptRel (lookup : List String) : Option Item → Option Item → Prop
  | some (.table xs), some (.table ys) => List.Forall₂ (entryPreserved lookup) xs ys
  | x, y => y = x

/-- Combined description of the dependencies half of member processing:
the resulting package is the checked one, the flag folds in the
dependency mismatches, reprocessing the result is a fixpoint, a quiet
result means nothing moved, and the filter frame relation holds. -/
theorem processMemberDeps_spec {pkg1 : Item} {ch1 : Bool} {l : List String} {t : String}
    {od : Option Item} {doc' : MemberDoc} {ch : Bool}
    (h : processMemberDeps pkg1 ch1 l t od = .ok (doc', ch)) :
    doc'.package = some pkg1 ∧ ch = (ch1 || memberDepsMismatch l t od) ∧
    (∀ pkg2 : Item, processMemberDeps pkg2 false l t doc'.dependencies =
        .ok (⟨some pkg2, doc'.dependencies⟩, false)) ∧
    (ch = false → doc'.dependencies = od ∧ ch1 = false) ∧
    depsOptRel l od doc'.dependencies := by
  cases od with
  | none =>
    simp only [processMemberDeps, Outcome.ok.injEq, Prod.mk.injEq] at h
    obtain ⟨h1, h2⟩ := h
    subst h1
    subst h2
    refine ⟨rfl, by simp [memberDepsMismatch], by simp [processMemberDeps], ?_, ?_⟩
    · intro hf
      exact ⟨rfl, hf⟩
    · simp [depsOptRel]
  | some it =>
    cases it with
    | value v =>
      simp only [processMemberDeps, Outcome.ok.injEq, Prod.mk.injEq] at h
      obtain ⟨h1, h2⟩ := h
      subst h1
      subst h2
      refine ⟨rfl, by simp [memberDepsMismatch], by simp [processMemberDeps], ?_, ?_⟩
      · intro hf
        exact ⟨rfl, hf⟩
      · simp [depsOptRel]
    | arrayOfTables =>
      simp only [processMemberDeps, Outcome.ok.injEq, Prod.mk.injEq] at h
      obtain ⟨h1, h2⟩ := h
      subst h1
      subst h2
      refine ⟨rfl, by simp [memberDepsMismatch], by simp [processMemberDeps], ?_, ?_⟩
      · intro hf
        exact ⟨rfl, hf⟩
      · simp [depsOptRel]
    | table ds =>
      simp only [processMemberDeps] at h
      cases hr : processDeps l t ds with
      | ok p =>
        obtain ⟨ds2, c2⟩ := p
        rw [hr] at h
        simp only [Outcome.bind, Outcome.ok.injEq, Prod.mk.injEq] at h
        obtain ⟨h1, h2⟩ := h
        subst h1
        subst h2
        refine ⟨rfl, ?_, ?_, ?_, ?_⟩
        · rw [memberDepsMismatch, ← processDeps_changed hr]
        · intro pkg2
          simp only [processMemberDeps]
          rw [processDeps_idem hr]
          simp [Outcome.bind]
        · intro hf
          obtain ⟨hc1, hc2⟩ := Bool.or_eq_false_iff.mp hf
          have hr' : processDeps l t ds = .ok (ds2, false) := by rw [hr, hc2]
          rw [processDeps_of_not_changed hr']
          exact ⟨rfl, hc1⟩
        · simp only [depsOptRel]
          exact processDeps_frame hr
      | error m => rw [hr] at h; simp [Outcome.bind] at h
      | panic m => rw [hr] at h; simp [Outcome.bind] at h

theorem processMemberDoc_idem {doc doc' : MemberDoc} {path : String} {lookup : List String}
    {fwv : Bool} {t : String} {ch : Bool}
    (h : processMemberDoc doc path lookup fwv t = .ok (doc', ch)) :
    processMemberDoc doc' path lookup fwv t = .ok (doc', false) := by
  unfold processMemberDoc at h ⊢
  cases hp : doc.package with
  | none => rw [hp] at h; simp [processMemberPkg] at h
  | some pkg =>
    rw [hp] at h
    simp only [processMemberPkg] at h
    cases hcv : checkMemberVersion pkg path fwv t with
    | ok pv =>
      obtain ⟨pkg1, ch1⟩ := pv
      rw [hcv] at h
      simp only [Outcome.bind] at h
      obtain ⟨hpk, -, hfix, -, -⟩ := processMemberDeps_spec h
      obtain ⟨dp, dd⟩ := doc'
      simp only at hpk
      subst hpk
      simp only [processMemberPkg]
      rw [checkMemberVersion_idem hcv]
      simp only [Outcome.bind]
      exact hfix pkg1
    | error m => rw [hcv] at h; simp [Outcome.bind] at h
    | panic m => rw [hcv] at h; simp [Outcome.bind] at h

theorem processMemberDoc_of_not_changed {doc doc' : MemberDoc} {path : String}
    {lookup : List String} {fwv : Bool} {t : String}
    (h : processMemberDoc doc path lookup fwv t = .ok (doc', false)) : doc' = doc := by
  unfold processMemberDoc at h
  cases hp : doc.package with
  | none => rw [hp] at h; simp [processMemberPkg] at h
  | some pkg =>
    rw [hp] at h
    simp only [processMemberPkg] at h
    cases hcv : checkMemberVersion pkg path fwv t with
    | ok pv =>
      obtain ⟨pkg1, ch1⟩ := pv
      rw [hcv] at h
      simp only [Outcome.bind] at h
      obtain ⟨hpk, -, -, hquiet, -⟩ := processMemberDeps_spec h
      obtain ⟨hdd, hch1⟩ := hquiet rfl
      have hpkg : pkg1 = pkg := checkMemberVersion_of_not_changed (by rw [hcv, hch1])
      obtain ⟨dp, dd⟩ := doc'
      obtain ⟨p0, d0⟩ := doc
      simp only at hpk hdd hp
      subst hpk
      subst hdd
      subst hpkg
      rw [hp]
    | error m => rw [hcv] at h; simp [Outcome.bind] at h
    | panic m => rw [hcv] at h; simp [Outcome.bind] at h

theorem processMemberDoc_changed {doc doc' : MemberDoc} {path : String}
    {lookup : List String} {fwv : Bool} {t : String} {ch : Bool}
    (h : processMemberDoc doc path lookup fwv t = .ok (doc', ch)) :
    ch = memberDocMismatch lookup t doc := by
  unfold processMemberDoc at h
  unfold memberDocMismatch
  cases hp : doc.package with
  | none => rw [hp] at h; simp [processMemberPkg] at h
  | some pkg =>
    rw [hp] at h
    simp only [processMemberPkg] at h
    cases hcv : checkMemberVersion pkg path fwv t with
    | ok pv =>
      obtain ⟨pkg1, ch1⟩ := pv
      rw [hcv] at h
      simp only [Outcome.bind] at h
      obtain ⟨-, hch, -, -, -⟩ := processMemberDeps_spec h
      rw [hch, checkMemberVersion_changed hcv, memberPkgMismatch]
    | error m => rw [hcv] at h; simp [Outcome.bind] at h
    | panic m => rw [hcv] at h; simp [Outcome.bind] at h

theorem processMemberDoc_frame {doc doc' : MemberDoc} {path : String}
    {lookup : List String} {fwv : Bool} {t : String} {ch : Bool}
    (h : processMemberDoc doc path lookup fwv t = .ok (doc', ch)) :
    depsOptRel lookup doc.dependencies doc'.dependencies := by
  unfold processMemberDoc at h
  cases hp : doc.package with
  | none => rw [hp] at h; simp [processMemberPkg] at h
  | some pkg =>
    rw [hp] at h
    simp only [processMemberPkg] at h
    cases hcv : checkMemberVersion pkg path fwv t with
    | ok pv =>
      obtain ⟨pkg1, ch1⟩ := pv
      rw [hcv] at h
      simp only [Outcome.bind] at h
      obtain ⟨-, -, -, -, hrel⟩ := processMemberDeps_spec h
      exact hrel
    | error m => rw [hcv] at h; simp [Outcome.bind] at h
    | panic m => rw [hcv] at h; simp [Outcome.bind] at h

/-! ## Lemmas about root processing -/

/-- The mismatch observation for the optional workspace section. -/
def wsPkgMismatch (target : String) : Option RootWorkspace → Bool
  | some ws => memberPkgMismatch target ws.package
  | none => false

/-- The mismatch observation for the root manifest. -/
def rootMismatch (target : String) (doc : RootDoc) : Bool :=
  wsPkgMismatch target doc.workspace

/-- Unfolding equation for the root version value case. -/
theorem processRootVersion_value_eq (doc : RootDoc) (ws : RootWorkspace) (pkg : Item)
    (t : String) (v : Value) :
    processRootVersion doc ws pkg t (some (.value v)) =
      .ok ⟨true, (check_version v t).2,
        if (check_version v t).2
        then ⟨some ⟨some (pkg.setVal "version" (check_version v t).1), ws.members⟩⟩
        else doc⟩ := rfl

/-- Unfolding equation for the root version table case. -/
theorem processRootVersion_table_eq (doc : RootDoc) (ws : RootWorkspace) (pkg : Item)
    (t : String) (tbl : List (String × Item)) :
    processRootVersion doc ws pkg t (some (.table tbl)) =
      .error "version in [workspace.package] was not a string" := rfl

/-- Unfolding equation for the root version array-of-tables case. -/
theorem processRootVersion_aot_eq (doc : RootDoc) (ws : RootWorkspace) (pkg : Item)
    (t : String) :
    processRootVersion doc ws pkg t (some .arrayOfTables) =
      .error "version in [workspace.package] was not a string" := rfl

theorem processRoot_idem {doc : RootDoc} {t : String} {rr : RootResult}
    (h : processRoot doc t = .ok rr) :
    processRoot rr.doc t = .ok ⟨rr.fwv, false, rr.doc⟩ := by
  unfold processRoot at h ⊢
  cases hw : doc.workspace with
  | none => rw [hw] at h; exact Outcome.noConfusion h
  | some ws =>
    rw [hw] at h
    simp only [processRootWs] at h
    cases hp : ws.package with
    | none =>
      rw [hp] at h
      simp only [processRootPkg, Outcome.ok.injEq] at h
      subst h
      rw [hw]
      simp only [processRootWs]
      rw [hp]
      rfl
    | some pkg =>
      rw [hp] at h
      simp only [processRootPkg] at h
      cases hg : pkg.get "version" with
      | none =>
        rw [hg] at h
        simp only [processRootVersion, Outcome.ok.injEq] at h
        subst h
        rw [hw]
        simp only [processRootWs]
        rw [hp]
        simp only [processRootPkg]
        rw [hg]
        rfl
      | some it =>
        rw [hg] at h
        cases it with
        | value v =>
          rw [processRootVersion_value_eq] at h
          by_cases hch : (check_version v t).2 = true
          · rw [if_pos hch, hch] at h
            simp only [Outcome.ok.injEq] at h
            subst h
            simp only [processRootWs, processRootPkg]
            rw [Item.get_setVal hg, processRootVersion_value_eq]
            simp [check_version_idem v t]
          · simp only [Bool.not_eq_true] at hch
            rw [if_neg (by simp [hch]), hch] at h
            simp only [Outcome.ok.injEq] at h
            subst h
            rw [hw]
            simp only [processRootWs]
            rw [hp]
            simp only [processRootPkg]
            rw [hg, processRootVersion_value_eq]
            rw [hch, if_neg (by simp)]
        | table tbl =>
          rw [processRootVersion_table_eq] at h
          exact Outcome.noConfusion h
        | arrayOfTables =>
          rw [processRootVersion_aot_eq] at h
          exact Outcome.noConfusion h

theorem processRoot_members {doc : RootDoc} {t : String} {rr : RootResult}
    (h : processRoot doc t = .ok rr) : extractMembers rr.doc = extractMembers doc := by
  unfold processRoot at h
  cases hw : doc.workspace with
  | none => rw [hw] at h; exact Outcome.noConfusion h
  | some ws =>
    rw [hw] at h
    simp only [processRootWs] at h
    cases hp : ws.package with
    | none =>
      rw [hp] at h
      simp only [processRootPkg, Outcome.ok.injEq] at h
      subst h
      rfl
    | some pkg =>
      rw [hp] at h
      simp only [processRootPkg] at h
      cases hg : pkg.get "version" with
      | none =>
        rw [hg] at h
        simp only [processRootVersion, Outcome.ok.injEq] at h
        subst h
        rfl
      | some it =>
        rw [hg] at h
        cases it with
        | value v =>
          rw [processRootVersion_value_eq] at h
          simp only [Outcome.ok.injEq] at h
          subst h
          by_cases hch : (check_version v t).2 = true
          · rw [if_pos hch]
            unfold extractMembers
            rw [hw]
            simp only [extractMembersWs]
          · rw [if_neg hch]
        | table tbl =>
          rw [processRootVersion_table_eq] at h
          exact Outcome.noConfusion h
        | arrayOfTables =>
          rw [processRootVersion_aot_eq] at h
          exact Outcome.noConfusion h

theorem processRoot_changed {doc : RootDoc} {t : String} {rr : RootResult}
    (h : processRoot doc t = .ok rr) : rr.rootUpdated = rootMismatch t doc := by
  unfold processRoot at h
  unfold rootMismatch
  cases hw : doc.workspace with
  | none => rw [hw] at h; exact Outcome.noConfusion h
  | some ws =>
    rw [hw] at h
    simp only [processRootWs] at h
    cases hp : ws.package with
    | none =>
      rw [hp] at h
      simp only [processRootPkg, Outcome.ok.injEq] at h
      subst h
      simp [wsPkgMismatch, memberPkgMismatch, hp]
    | some pkg =>
      rw [hp] at h
      simp only [processRootPkg] at h
      cases hg : pkg.get "version" with
      | none =>
        rw [hg] at h
        simp only [processRootVersion, Outcome.ok.injEq] at h
        subst h
        simp [wsPkgMismatch, memberPkgMismatch, hp, pkgVersionMismatch, hg]
      | some it =>
        rw [hg] at h
        cases it with
        | value v =>
          rw [processRootVersion_value_eq] at h
          simp only [Outcome.ok.injEq] at h
          subst h
          simp only [wsPkgMismatch]
          rw [hp]
          simp only [memberPkgMismatch]
          rw [hg]
          simp only [pkgVersionMismatch]
          exact check_version_changed v t
        | table tbl =>
          rw [processRootVersion_table_eq] at h
          exact Outcome.noConfusion h
        | arrayOfTables =>
          rw [processRootVersion_aot_eq] at h
          exact Outcome.noConfusion h

theorem processRoot_doc_of_not_updated {doc : RootDoc} {t : String} {rr : RootResult}
    (h : processRoot doc t = .ok rr) (hu : rr.rootUpdated = false) : rr.doc = doc := by
  unfold processRoot at h
  cases hw : doc.workspace with
  | none => rw [hw] at h; exact Outcome.noConfusion h
  | some ws =>
    rw [hw] at h
    simp only [processRootWs] at h
    cases hp : ws.package with
    | none =>
      rw [hp] at h
      simp only [processRootPkg, Outcome.ok.injEq] at h
      subst h
      rfl
    | some pkg =>
      rw [hp] at h
      simp only [processRootPkg] at h
      cases hg : pkg.get "version" with
      | none =>
        rw [hg] at h
        simp only [processRootVersion, Outcome.ok.injEq] at h
        subst h
        rfl
      | some it =>
        rw [hg] at h
        cases it with
        | value v =>
          rw [processRootVersion_value_eq] at h
          simp only [Outcome.ok.injEq] at h
          subst h
          simp only at hu
          simp [hu]
        | table tbl =>
          rw [processRootVersion_table_eq] at h
          exact Outcome.noConfusion h
        | arrayOfTables =>
          rw [processRootVersion_aot_eq] at h
          exact Outcome.noConfusion h

/-! ## Lemmas about the member loop -/

/-- Unfolding equation: an unreadable member manifest is an IO error. -/
theorem processMemberRead_none_eq (w : Bool) (l : List String) (fwv : Bool) (t : String)
    (st : PassState) (path : String) :
    processMemberRead w l fwv t st path none = .error ("Cannot read " ++ path) := rfl

/-- Unfolding equation: a read member manifest is processed and
conditionally written back. -/
theorem processMemberRead_some_eq (w : Bool) (l : List String) (fwv : Bool) (t : String)
    (st : PassState) (path : String) (doc : MemberDoc) :
    processMemberRead w l fwv t st path (some doc) =
      Outcome.bind (processMemberDoc doc path l fwv t) fun r =>
        .ok (if r.2 && w
             then ⟨setFile st.files path r.1, st.writes ++ [path], st.someDiff || r.2⟩
             else ⟨st.files, st.writes, st.someDiff || r.2⟩) := rfl

theorem lookupFile_setFile_self {files : List (String × MemberDoc)} {path : String}
    {d0 : MemberDoc} (h : lookupFile files path = some d0) (doc : MemberDoc) :
    lookupFile (setFile files path doc) path = some doc := by
  induction files with
  | nil => simp [lookupFile] at h
  | cons pd rest ih =>
    obtain ⟨p, d⟩ := pd
    by_cases hp : p = path <;> simp_all [lookupFile, setFile]

theorem lookupFile_setFile_ne {files : List (String × MemberDoc)} {path q : String}
    (hq : q ≠ path) (doc : MemberDoc) :
    lookupFile (setFile files path doc) q = lookupFile files q := by
  induction files with
  | nil => simp [lookupFile, setFile]
  | cons pd rest ih =>
    obtain ⟨p, d⟩ := pd
    by_cases hp : p = path
    · subst hp
      have hpq : p ≠ q := fun hc => hq hc.symm
      simp [lookupFile, setFile, hpq]
    · by_cases hpq : p = q <;> simp_all [lookupFile, setFile]

/-- The mismatch observation for a file read from disk. -/
def fileMismatch (lookup : List String) (target : String) : Option MemberDoc → Bool
  | some doc => memberDocMismatch lookup target doc
  | none => false

/-- The mismatch observation over the members, reading a fixed disk. -/
def anyMemberMismatch (files : List (String × MemberDoc)) (lookup : List String)
    (target : String) : List String → Bool
  | [] => false
  | n :: rest =>
    fileMismatch lookup target (lookupFile files (n ++ "/Cargo.toml")) ||
      anyMemberMismatch files lookup target rest

/-- In check mode one loop iteration only folds the mismatch
observation into the flag: disk and write list are untouched. -/
theorem processOneMember_check {l : List String} {fwv : Bool} {t : String}
    {st st' : PassState} {n : String}
    (h : processOneMember false l fwv t st n = .ok st') :
    st' = ⟨st.files, st.writes,
      st.someDiff || fileMismatch l t (lookupFile st.files (n ++ "/Cargo.toml"))⟩ := by
  unfold processOneMember at h
  cases hf : lookupFile st.files (n ++ "/Cargo.toml") with
  | none => rw [hf, processMemberRead_none_eq] at h; exact Outcome.noConfusion h
  | some doc =>
    rw [hf, processMemberRead_some_eq] at h
    cases hd : processMemberDoc doc (n ++ "/Cargo.toml") l fwv t with
    | ok r =>
      obtain ⟨doc', ch⟩ := r
      rw [hd] at h
      simp only [Outcome.bind, Bool.and_false, Bool.false_eq_true, if_false,
        Outcome.ok.injEq] at h
      rw [← h]
      simp only [fileMismatch]
      rw [← processMemberDoc_changed hd]
    | error m => rw [hd] at h; exact Outcome.noConfusion h
    | panic m => rw [hd] at h; exact Outcome.noConfusion h

/-- In check mode the loop only aggregates mismatch observations. -/
theorem processMembers_check {l : List String} {fwv : Bool} {t : String}
    {ns : List String} {st st' : PassState}
    (h : processMembers false l fwv t st ns = .ok st') :
    st' = ⟨st.files, st.writes, st.someDiff || anyMemberMismatch st.files l t ns⟩ := by
  induction ns generalizing st with
  | nil =>
    simp only [processMembers, Outcome.ok.injEq] at h
    rw [← h]
    obtain ⟨f, w, d⟩ := st
    simp [anyMemberMismatch]
  | cons n rest ih =>
    simp only [processMembers] at h
    cases ho : processOneMember false l fwv t st n with
    | ok st1 =>
      rw [ho] at h
      simp only [Outcome.bind] at h
      have h1 := processOneMember_check ho
      subst h1
      have h2 := ih h
      rw [h2]
      simp [anyMemberMismatch, Bool.or_assoc]
    | error m => rw [ho] at h; exact Outcome.noConfusion h
    | panic m => rw [ho] at h; exact Outcome.noConfusion h

/-! ## Stability of processed member files -/

/-- A disk path is stable when its manifest reads back and reprocessing
it is a no-op. -/
def stableAt (l : List String) (fwv : Bool) (t : String)
    (files : List (String × MemberDoc)) (path : String) : Prop :=
  ∃ doc, lookupFile files path = some doc ∧
    processMemberDoc doc path l fwv t = .ok (doc, false)

/-- Processing a member at a stable path changes nothing at all. -/
theorem processOneMember_at_stable {w : Bool} {l : List String} {fwv : Bool} {t : String}
    {st : PassState} {n : String}
    (hs : stableAt l fwv t st.files (n ++ "/Cargo.toml")) :
    processOneMember w l fwv t st n = .ok st := by
  obtain ⟨doc, hf, hp⟩ := hs
  unfold processOneMember
  rw [hf, processMemberRead_some_eq, hp]
  simp only [Outcome.bind, Bool.false_and, Bool.false_eq_true, if_false, Bool.or_false]

/-- One loop iteration preserves stability of every path. -/
theorem processOneMember_stable_preserve {w : Bool} {l : List String} {fwv : Bool}
    {t : String} {st st' : PassState} {n p : String}
    (h : processOneMember w l fwv t st n = .ok st')
    (hs : stableAt l fwv t st.files p) : stableAt l fwv t st'.files p := by
  unfold processOneMember at h
  cases hf : lookupFile st.files (n ++ "/Cargo.toml") with
  | none => rw [hf, processMemberRead_none_eq] at h; exact Outcome.noConfusion h
  | some doc =>
    rw [hf, processMemberRead_some_eq] at h
    cases hd : processMemberDoc doc (n ++ "/Cargo.toml") l fwv t with
    | ok r =>
      obtain ⟨doc', ch⟩ := r
      rw [hd] at h
      simp only [Outcome.bind, Outcome.ok.injEq] at h
      by_cases hcw : (ch && w) = true
      · rw [if_pos hcw] at h
        rw [← h]
        by_cases hpn : p = n ++ "/Cargo.toml"
        · subst hpn
          refine ⟨doc', lookupFile_setFile_self hf doc', ?_⟩
          exact processMemberDoc_idem hd
        · obtain ⟨d0, hl0, hp0⟩ := hs
          exact ⟨d0, by rw [lookupFile_setFile_ne hpn]; exact hl0, hp0⟩
      · rw [if_neg hcw] at h
        rw [← h]
        exact hs
    | error m => rw [hd] at h; exact Outcome.noConfusion h
    | panic m => rw [hd] at h; exact Outcome.noConfusion h

/-- In write mode, after an iteration the processed path is stable. -/
theorem processOneMember_stable_new {l : List String} {fwv : Bool} {t : String}
    {st st' : PassState} {n : String}
    (h : processOneMember true l fwv t st n = .ok st') :
    stableAt l fwv t st'.files (n ++ "/Cargo.toml") := by
  unfold processOneMember at h
  cases hf : lookupFile st.files (n ++ "/Cargo.toml") with
  | none => rw [hf, processMemberRead_none_eq] at h; exact Outcome.noConfusion h
  | some doc =>
    rw [hf, processMemberRead_some_eq] at h
    cases hd : processMemberDoc doc (n ++ "/Cargo.toml") l fwv t with
    | ok r =>
      obtain ⟨doc', ch⟩ := r
      rw [hd] at h
      simp only [Outcome.bind, Outcome.ok.injEq] at h
      by_cases hch : ch = true
      · rw [if_pos (by rw [hch]; rfl)] at h
        rw [← h]
        refine ⟨doc', lookupFile_setFile_self hf doc', ?_⟩
        exact processMemberDoc_idem hd
      · simp only [Bool.not_eq_true] at hch
        rw [if_neg (by rw [hch]; simp)] at h
        rw [← h]
        subst hch
        have hde : doc' = doc := processMemberDoc_of_not_changed hd
        subst hde
        exact ⟨doc', hf, hd⟩
    | error m => rw [hd] at h; exact Outcome.noConfusion h
    | panic m => rw [hd] at h; exact Outcome.noConfusion h

/-- After a write-mode member loop, stability is preserved and every
listed member path has become stable. -/
theorem processMembers_stable {l : List String} {fwv : Bool} {t : String}
    {ns : List String} {st st' : PassState}
    (h : processMembers true l fwv t st ns = .ok st') :
    (∀ p, stableAt l fwv t st.files p → stableAt l fwv t st'.files p) ∧
    (∀ n ∈ ns, stableAt l fwv t st'.files (n ++ "/Cargo.toml")) := by
  induction ns generalizing st with
  | nil =>
    simp only [processMembers, Outcome.ok.injEq] at h
    subst h
    exact ⟨fun p hp => hp, by simp⟩
  | cons n rest ih =>
    simp only [processMembers] at h
    cases ho : processOneMember true l fwv t st n with
    | ok st1 =>
      rw [ho] at h
      simp only [Outcome.bind] at h
      obtain ⟨hpres, hmem⟩ := ih h
      refine ⟨fun p hp => hpres p (processOneMember_stable_preserve ho hp), ?_⟩
      intro m hm
      rcases List.mem_cons.mp hm with hm | hm
      · subst hm
        exact hpres _ (processOneMember_stable_new ho)
      · exact hmem m hm
    | error m => rw [ho] at h; exact Outcome.noConfusion h
    | panic m => rw [ho] at h; exact Outcome.noConfusion h

/-- A loop over members whose paths are all stable is the identity. -/
theorem processMembers_all_stable {w : Bool} {l : List String} {fwv : Bool} {t : String}
    {ns : List String} {st : PassState}
    (hs : ∀ n ∈ ns, stableAt l fwv t st.files (n ++ "/Cargo.toml")) :
    processMembers w l fwv t st ns = .ok st := by
  induction ns with
  | nil => rfl
  | cons n rest ih =>
    simp only [processMembers]
    rw [processOneMember_at_stable (hs n (by simp))]
    simp only [Outcome.bind]
    exact ih (fun m hm => hs m (by simp [hm]))

/-! ## The dependency-filter frame relation across a whole run -/

theorem entryPreserved_refl (l : List String) (a : String × Item) :
    entryPreserved l a a := ⟨rfl, fun _ => rfl⟩

theorem entryPreserved_trans {l : List String} {a b c : String × Item}
    (hab : entryPreserved l a b) (hbc : entryPreserved l b c) : entryPreserved l a c := by
  obtain ⟨h1, h2⟩ := hab
  obtain ⟨h3, h4⟩ := hbc
  refine ⟨h3.trans h1, ?_⟩
  intro hcond
  have hba : b = a := h2 hcond
  subst hba
  exact h4 hcond

theorem forall2_entryPreserved_trans {l : List String} {xs ys zs : List (String × Item)}
    (h1 : List.Forall₂ (entryPreserved l) xs ys)
    (h2 : List.Forall₂ (entryPreserved l) ys zs) :
    List.Forall₂ (entryPreserved l) xs zs := by
  induction h1 generalizing zs with
  | nil => cases h2; exact List.Forall₂.nil
  | cons hab h1' ih =>
    cases h2 with
    | cons hbc h2' => exact List.Forall₂.cons (entryPreserved_trans hab hbc) (ih h2')

theorem depsOptRel_refl (l : List String) (x : Option Item) : depsOptRel l x x := by
  cases x with
  | none => simp [depsOptRel]
  | some it =>
    cases it with
    | table xs =>
      simp only [depsOptRel]
      exact List.forall₂_same.mpr fun a _ => entryPreserved_refl l a
    | value v => simp [depsOptRel]
    | arrayOfTables => simp [depsOptRel]

theorem depsOptRel_cases {l : List String} {x y : Option Item} (h : depsOptRel l x y) :
    y = x ∨ ∃ xs ys, x = some (.table xs) ∧ y = some (.table ys) ∧
      List.Forall₂ (entryPreserved l) xs ys := by
  cases x with
  | none =>
    cases y with
    | none => exact Or.inl rfl
    | some it => cases it <;> simp_all [depsOptRel]
  | some itx =>
    cases itx with
    | value v =>
      cases y with
      | none => simp_all [depsOptRel]
      | some it => cases it <;> simp_all [depsOptRel]
    | arrayOfTables =>
      cases y with
      | none => simp_all [depsOptRel]
      | some it => cases it <;> simp_all [depsOptRel]
    | table xs =>
      cases y with
      | none => simp_all [depsOptRel]
      | some ity =>
        cases ity with
        | table ys => exact Or.inr ⟨xs, ys, rfl, rfl, h⟩
        | value v => simp_all [depsOptRel]
        | arrayOfTables => simp_all [depsOptRel]

theorem depsOptRel_trans {l : List String} {x y z : Option Item}
    (hxy : depsOptRel l x y) (hyz : depsOptRel l y z) : depsOptRel l x z := by
  rcases depsOptRel_cases hxy with h1 | ⟨xs, ys, hx, hy, hf1⟩
  · subst h1
    exact hyz
  · rcases depsOptRel_cases hyz with h2 | ⟨ys2, zs, hy2, hz, hf2⟩
    · subst h2
      subst hx
      subst hy
      simp only [depsOptRel]
      exact hf1
    · subst hx
      subst hz
      rw [hy] at hy2
      injection hy2 with hy3
      injection hy3 with hy4
      subst hy4
      simp only [depsOptRel]
      exact forall2_entryPreserved_trans hf1 hf2

/-- The frame relation between two optional manifests at a path. -/
def fileRel (lookup : List String) : Option MemberDoc → Option MemberDoc → Prop
  | some d0, some d1 => depsOptRel lookup d0.dependencies d1.dependencies
  | none, none => True
  | _, _ => False

theorem fileRel_refl (l : List String) (x : Option MemberDoc) : fileRel l x x := by
  cases x with
  | none => simp [fileRel]
  | some d => simp only [fileRel]; exact depsOptRel_refl l d.dependencies

theorem fileRel_trans {l : List String} {x y z : Option MemberDoc}
    (hxy : fileRel l x y) (hyz : fileRel l y z) : fileRel l x z := by
  cases x with
  | none =>
    cases y with
    | none =>
      cases z with
      | none => trivial
      | some d => simp_all [fileRel]
    | some d => simp_all [fileRel]
  | some d0 =>
    cases y with
    | none => simp_all [fileRel]
    | some d1 =>
      cases z with
      | none => simp_all [fileRel]
      | some d2 =>
        simp only [fileRel] at hxy hyz ⊢
        exact depsOptRel_trans hxy hyz

/-- The frame relation between two disks, pointwise over all paths. -/
def filesRel (lookup : List String) (f0 f1 : List (String × MemberDoc)) : Prop :=
  ∀ p, fileRel lookup (lookupFile f0 p) (lookupFile f1 p)

theorem filesRel_refl (l : List String) (f : List (String × MemberDoc)) : filesRel l f f :=
  fun p => fileRel_refl l (lookupFile f p)

theorem filesRel_trans {l : List String} {f0 f1 f2 : List (String × MemberDoc)}
    (h1 : filesRel l f0 f1) (h2 : filesRel l f1 f2) : filesRel l f0 f2 :=
  fun p => fileRel_trans (h1 p) (h2 p)

/-- One loop iteration relates the disk before and after. -/
theorem processOneMember_filesRel {w : Bool} {l : List String} {fwv : Bool} {t : String}
    {st st' : PassState} {n : String}
    (h : processOneMember w l fwv t st n = .ok st') : filesRel l st.files st'.files := by
  unfold processOneMember at h
  cases hf : lookupFile st.files (n ++ "/Cargo.toml") with
  | none => rw [hf, processMemberRead_none_eq] at h; exact Outcome.noConfusion h
  | some doc =>
    rw [hf, processMemberRead_some_eq] at h
    cases hd : processMemberDoc doc (n ++ "/Cargo.toml") l fwv t with
    | ok r =>
      obtain ⟨doc', ch⟩ := r
      rw [hd] at h
      simp only [Outcome.bind, Outcome.ok.injEq] at h
      by_cases hcw : (ch && w) = true
      · rw [if_pos hcw] at h
        have hst : st'.files = setFile st.files (n ++ "/Cargo.toml") doc' := by rw [← h]
        intro p
        rw [hst]
        by_cases hpn : p = n ++ "/Cargo.toml"
        · subst hpn
          rw [hf, lookupFile_setFile_self hf doc']
          simp only [fileRel]
          exact processMemberDoc_frame hd
        · rw [lookupFile_setFile_ne hpn]
          exact fileRel_refl l _
      · rw [if_neg hcw] at h
        have hst : st'.files = st.files := by rw [← h]
        rw [hst]
        exact filesRel_refl l _
    | error m => rw [hd] at h; exact Outcome.noConfusion h
    | panic m => rw [hd] at h; exact Outcome.noConfusion h

/-- The member loop relates the disk before and after. -/
theorem processMembers_filesRel {w : Bool} {l : List String} {fwv : Bool} {t : String}
    {ns : List String} {st st' : PassState}
    (h : processMembers w l fwv t st ns = .ok st') : filesRel l st.files st'.files := by
  induction ns generalizing st with
  | nil =>
    simp only [processMembers, Outcome.ok.injEq] at h
    subst h
    exact filesRel_refl l _
  | cons n rest ih =>
    simp only [processMembers] at h
    cases ho : processOneMember w l fwv t st n with
    | ok st1 =>
      rw [ho] at h
      simp only [Outcome.bind] at h
      exact filesRel_trans (processOneMember_filesRel ho) (ih h)
    | error m => rw [ho] at h; exact Outcome.noConfusion h
    | panic m => rw [ho] at h; exact Outcome.noConfusion h

/-! ## Decomposition of the full pass -/

theorem processPass_elim {target : String} {w : Bool} {fs : FS} {r : RunResult}
    (h : processPass target w fs = .ok r) :
    ∃ rr names st,
      processRoot fs.root target = .ok rr ∧
      extractMembers rr.doc = .ok names ∧
      processMembers w names rr.fwv target ⟨fs.files, [], rr.rootUpdated⟩ names = .ok st ∧
      r = (if rr.rootUpdated && w
           then ⟨rr.doc, st.files, st.writes ++ ["Cargo.toml"], st.someDiff⟩
           else ⟨fs.root, st.files, st.writes, st.someDiff⟩) := by
  unfold processPass at h
  cases h1 : processRoot fs.root target with
  | ok rr =>
    rw [h1] at h
    simp only [Outcome.bind] at h
    cases h2 : extractMembers rr.doc with
    | ok names =>
      rw [h2] at h
      simp only [Outcome.bind] at h
      cases h3 : processMembers w names rr.fwv target ⟨fs.files, [], rr.rootUpdated⟩ names with
      | ok st =>
        rw [h3] at h
        simp only [Outcome.bind, Outcome.ok.injEq] at h
        exact ⟨rr, names, st, rfl, h2, h3, h.symm⟩
      | error m => rw [h3] at h; exact Outcome.noConfusion h
      | panic m => rw [h3] at h; exact Outcome.noConfusion h
    | error m => rw [h2] at h; exact Outcome.noConfusion h
    | panic m => rw [h2] at h; exact Outcome.noConfusion h
  | error m => rw [h1] at h; exact Outcome.noConfusion h
  | panic m => rw [h1] at h; exact Outcome.noConfusion h

/-- A completed check-mode pass leaves the disk untouched, writes
nothing, and its difference flag is exactly the mismatch observation
over the initial disk. -/
theorem processPass_check {target : String} {fs : FS} {r : RunResult}
    (h : processPass target false fs = .ok r) :
    r.root = fs.root ∧ r.files = fs.files ∧ r.writes = [] ∧
    ∀ names, extractMembers fs.root = .ok names →
      r.someDiff = (rootMismatch target fs.root ||
        anyMemberMismatch fs.files names target names) := by
  obtain ⟨rr, names0, st, h1, h2, h3, h4⟩ := processPass_elim h
  have hst := processMembers_check h3
  subst hst
  simp only [Bool.and_false, Bool.false_eq_true, if_false] at h4
  subst h4
  refine ⟨rfl, rfl, rfl, ?_⟩
  intro names hn
  have hn0 : extractMembers rr.doc = extractMembers fs.root := processRoot_members h1
  rw [hn0, hn] at h2
  injection h2 with h2
  subst h2
  simp only
  rw [processRoot_changed h1]

/-- Rerunning a completed write-mode pass on the disk it produced
changes nothing and writes nothing. -/
theorem processPass_update_idem {target : String} {fs : FS} {r : RunResult}
    (h : processPass target true fs = .ok r) :
    processPass target true ⟨r.root, r.files⟩ = .ok ⟨r.root, r.files, [], false⟩ := by
  obtain ⟨rr, names, st, h1, h2, h3, h4⟩ := processPass_elim h
  obtain ⟨hpres, hmem⟩ := processMembers_stable h3
  have hfiles : r.files = st.files := by
    rw [h4]
    by_cases hru : rr.rootUpdated = true <;> simp [hru]
  have hroot2 : processRoot r.root target = .ok ⟨rr.fwv, false, r.root⟩ := by
    by_cases hru : rr.rootUpdated = true
    · have hr : r.root = rr.doc := by rw [h4]; simp [hru]
      rw [hr]
      exact processRoot_idem h1
    · simp only [Bool.not_eq_true] at hru
      have hdoc : rr.doc = fs.root := processRoot_doc_of_not_updated h1 hru
      have hr : r.root = fs.root := by rw [h4]; simp [hru]
      rw [hr, ← hdoc]
      exact processRoot_idem h1
  have hmembers2 : extractMembers r.root = .ok names := by
    by_cases hru : rr.rootUpdated = true
    · have hr : r.root = rr.doc := by rw [h4]; simp [hru]
      rw [hr]
      exact h2
    · simp only [Bool.not_eq_true] at hru
      have hdoc : rr.doc = fs.root := processRoot_doc_of_not_updated h1 hru
      have hr : r.root = fs.root := by rw [h4]; simp [hru]
      rw [hr, ← hdoc]
      exact h2
  have hstable : ∀ n ∈ names,
      stableAt names rr.fwv target (FS.files ⟨r.root, r.files⟩) (n ++ "/Cargo.toml") := by
    intro n hn
    have := hmem n hn
    simp only
    rw [hfiles]
    exact this
  unfold processPass
  rw [hroot2]
  simp only [Outcome.bind]
  rw [hmembers2]
  simp only [Outcome.bind]
  rw [processMembers_all_stable hstable]
  simp only [Outcome.bind, Bool.false_and, Bool.false_eq_true, if_false]

/-! ## Unfolding the two run modes -/

theorem run_update_eq (V : String) (q : Bool) (fs : FS) :
    run ⟨.update V, q⟩ fs = processPass (stripLeadingV V) true fs := by
  show Outcome.bind (processPass (stripLeadingV V) true fs)
      (fun r => if false && r.someDiff then .error "There were differences" else .ok r) =
    processPass (stripLeadingV V) true fs
  cases processPass (stripLeadingV V) true fs <;> simp [Outcome.bind]

theorem run_check_eq (V : String) (q : Bool) (fs : FS) :
    run ⟨.check V, q⟩ fs =
      Outcome.bind (processPass (stripLeadingV V) false fs)
        (fun r => if r.someDiff then .error "There were differences" else .ok r) := by
  show Outcome.bind (processPass (stripLeadingV V) false fs)
      (fun r => if true && r.someDiff then .error "There were differences" else .ok r) = _
  simp [Bool.true_and]

/-! ## Claim C1: inheritance marker without a shared root version -/

/-- C1 concrete workspace: the root declares no shared version, the
member inherits via a version table with workspace equal true. -/
def c1Tbl : List (String × Item) := [("workspace", .value (.boolean true))]

/-- The package item of the C1 member. -/
def c1Pkg : Item := .table [("version", .table c1Tbl)]

/-- The C1 member manifest. -/
def c1Member : MemberDoc := ⟨some c1Pkg, none⟩

/-- The C1 root manifest: members only, no workspace.package. -/
def c1Root : RootDoc := ⟨some ⟨none, some (.value (.array [.str "m"]))⟩⟩

/-- The C1 workspace on disk. -/
def c1FS : FS := ⟨c1Root, [("m/Cargo.toml", c1Member)]⟩

/-- C1 counterexample: the claim says processing such a member is a
no-op with no error, but the run aborts with the schema error, because
the guard on the inheritance-marker arm fails and the match falls
through to the bail arm. -/
theorem c1_counterexample :
    run ⟨.check "1.0.0", true⟩ c1FS = .error "version in m/Cargo.toml was not a string" := rfl

/-- C1 amended: for every member whose version field is an inheritance
marker (a table with workspace equal true) while the root workspace
does not declare a shared version, processing that member aborts the
run with the fatal error saying the version was not a string. -/
theorem c1_inheritance_marker_without_shared_version_errors
    (doc : MemberDoc) (pkg : Item) (path target : String) (lookup : List String)
    (tbl : List (String × Item))
    (hp : doc.package = some pkg)
    (hget : pkg.get "version" = some (.table tbl))
    (_hws : is_workspace_true tbl = true) :
    processMemberDoc doc path lookup false target =
      .error ("version in " ++ path ++ " was not a string") := by
  unfold processMemberDoc
  rw [hp]
  simp only [processMemberPkg]
  unfold checkMemberVersion
  rw [hget, checkVersionAt_table_eq, Bool.and_false]
  simp [Outcome.bind]

/-- C1 witness: the amended theorem applied to the concrete member. -/
theorem c1_witness :
    processMemberDoc c1Member "m/Cargo.toml" ["m"] false "1.0.0" =
      .error ("version in " ++ "m/Cargo.toml" ++ " was not a string") :=
  c1_inheritance_marker_without_shared_version_errors c1Member c1Pkg "m/Cargo.toml"
    "1.0.0" ["m"] c1Tbl rfl rfl rfl

/-! ## Claim C2: internal dependency without a version attribute -/

/-- The C2 root: two members. -/
def c2Root : RootDoc := ⟨some ⟨none, some (.value (.array [.str "a", .str "b"]))⟩⟩

/-- The C2 member a: depends on member b through an inline table that
has a path attribute but no version attribute. -/
def c2MemberA : MemberDoc :=
  ⟨some (.table [("version", .value (.str "1.0.0"))]),
   some (.table [("b", .value (.inlineTable [("path", .str "../b")]))])⟩

/-- The C2 member b. -/
def c2MemberB : MemberDoc := ⟨some (.table [("version", .value (.str "1.0.0"))]), none⟩

/-- The C2 workspace on disk. -/
def c2FS : FS := ⟨c2Root, [("a/Cargo.toml", c2MemberA), ("b/Cargo.toml", c2MemberB)]⟩

/-- C2: the claim (and the spec) say an eligible dependency entry with
no nested version attribute is skipped silently; the code instead
calls unwrap on the missing attribute and the process panics.  This
evaluates the code at the failing input. -/
theorem c2_missing_dep_version_panics :
    run ⟨.update "1.0.0", true⟩ c2FS = .panic "called Option unwrap on a None value" := rfl

/-! ## Claim C3: which version shapes are fatal schema errors -/

/-- The C3 root package item: the shared version is an integer. -/
def c3Pkg : Item := .table [("version", .value (.integer 5))]

/-- The C3 root manifest with a non-string shared version. -/
def c3Root : RootDoc := ⟨some ⟨some c3Pkg, some (.value (.array []))⟩⟩

/-- The C3 workspace on disk. -/
def c3FS : FS := ⟨c3Root, []⟩

/-- C3 counterexample: the claim says a root shared-version field that
is present and not a string is a fatal schema error; on this
workspace, whose root version is the integer five, the run succeeds
with no error and no mismatch. -/
theorem c3_counterexample :
    run ⟨.check "1.0.0", true⟩ c3FS = .ok ⟨c3Root, [], [], false⟩ := rfl

/-- C3 amended: a located version field that is a non-string scalar
value (integer, boolean, inline table and so on) is silently ignored:
no error and no mismatch, both in a member and at the root (where it
even counts as a found workspace version).  Only a non-value item - a
standard table that is not a satisfied inheritance marker, or an array
of tables - is the fatal schema error naming the offending file. -/
theorem c3_amended_schema_error_only_for_non_value_items
    (pkg : Item) (path target : String) (fwv : Bool) (it : Item)
    (hget : pkg.get "version" = some it) :
    (∀ v, it = Item.value v → v.as_str = none →
      checkMemberVersion pkg path fwv target = .ok (pkg, false)) ∧
    (∀ tbl, it = Item.table tbl → (is_workspace_true tbl && fwv) = false →
      checkMemberVersion pkg path fwv target =
        .error ("version in " ++ path ++ " was not a string")) ∧
    (it = Item.arrayOfTables →
      checkMemberVersion pkg path fwv target =
        .error ("version in " ++ path ++ " was not a string")) ∧
    (∀ (doc : RootDoc) (ws : RootWorkspace) (v : Value),
      doc.workspace = some ws → ws.package = some pkg →
      it = Item.value v → v.as_str = none →
      processRoot doc target = .ok ⟨true, false, doc⟩) := by
  refine ⟨?_, ?_, ?_, ?_⟩
  · intro v hv hns
    subst hv
    unfold checkMemberVersion
    rw [hget, checkVersionAt_value_eq, check_version_of_not_str v target hns]
    simp
  · intro tbl hv hw
    subst hv
    unfold checkMemberVersion
    rw [hget, checkVersionAt_table_eq, hw]
    simp
  · intro hv
    subst hv
    unfold checkMemberVersion
    rw [hget, checkVersionAt_aot_eq]
  · intro doc ws v hdoc hws hv hns
    subst hv
    unfold processRoot
    rw [hdoc]
    simp only [processRootWs]
    rw [hws]
    simp only [processRootPkg]
    rw [hget, processRootVersion_value_eq, check_version_of_not_str v target hns]
    simp

/-- C3 witness: the amended theorem applied to the integer version. -/
theorem c3_witness :
    checkMemberVersion c3Pkg "m/Cargo.toml" false "1.0.0" = .ok (c3Pkg, false) ∧
    processRoot c3Root "1.0.0" = .ok ⟨true, false, c3Root⟩ := by
  have h := c3_amended_schema_error_only_for_non_value_items c3Pkg "m/Cargo.toml"
    "1.0.0" false (.value (.integer 5)) rfl
  exact ⟨h.1 (.integer 5) rfl rfl,
    h.2.2.2 c3Root ⟨some c3Pkg, some (.value (.array []))⟩ (.integer 5) rfl rfl rfl rfl⟩

/-! ## Claim C4: exit behavior of the two modes -/

/-- C4: for every run whose pass completes without a fatal error, in
write mode the program exits successfully regardless of how many
fields changed, and in verify mode it fails exactly when some version
field anywhere (root, member, or dependency pin) differed from the
canonical target. -/
theorem c4_exit_behavior (args : Args) (fs : FS) (r : RunResult) (names : List String)
    (h : processPass args.version args.write fs = .ok r)
    (hn : extractMembers fs.root = .ok names) :
    (args.write = true → run args fs = .ok r) ∧
    (args.check = true →
      r.someDiff = (rootMismatch args.version fs.root ||
        anyMemberMismatch fs.files names args.version names) ∧
      (run args fs = .ok r ↔ r.someDiff = false) ∧
      (r.someDiff = true → run args fs = .error "There were differences")) := by
  constructor
  · intro hw
    have hc : args.check = false := by
      obtain ⟨cmd, q⟩ := args
      cases cmd with
      | update v => rfl
      | check v => exact absurd hw (by simp [Args.write])
    unfold run
    rw [h]
    simp only [Outcome.bind, hc, Bool.false_and, Bool.false_eq_true, if_false]
  · intro hc
    have hw : args.write = false := by
      obtain ⟨cmd, q⟩ := args
      cases cmd with
      | update v => exact absurd hc (by simp [Args.check])
      | check v => rfl
    rw [hw] at h
    obtain ⟨h1, h2, h3, h4⟩ := processPass_check h
    have herr : r.someDiff = true → run args fs = .error "There were differences" := by
      intro hd
      unfold run
      rw [hw, h]
      simp only [Outcome.bind, hc, hd, Bool.true_and, if_true]
    refine ⟨h4 names hn, ?_, herr⟩
    constructor
    · intro hok
      by_cases hd : r.someDiff = true
      · rw [herr hd] at hok
        exact Outcome.noConfusion hok
      · simpa using hd
    · intro hd
      unfold run
      rw [hw, h]
      simp only [Outcome.bind, hc, hd, Bool.true_and, Bool.false_eq_true, if_false]

/-- The C4 member manifest. -/
def c4Member : MemberDoc := ⟨some (.table [("version", .value (.str "0.1.0"))]), none⟩

/-- The C4 root manifest. -/
def c4Root : RootDoc := ⟨some ⟨none, some (.value (.array [.str "m"]))⟩⟩

/-- The C4 workspace on disk. -/
def c4FS : FS := ⟨c4Root, [("m/Cargo.toml", c4Member)]⟩

/-- The C4 completed pass result in check mode. -/
def c4Result : RunResult := ⟨c4Root, [("m/Cargo.toml", c4Member)], [], true⟩

/-- C4 witness: a verify run over a mismatching workspace signals the
aggregate failure. -/
theorem c4_witness :
    run ⟨.check "0.2.0", false⟩ c4FS = .error "There were differences" :=
  ((c4_exit_behavior ⟨.check "0.2.0", false⟩ c4FS c4Result ["m"] rfl rfl).2 rfl).2.2 rfl

/-! ## Claim C5: idempotence of update -/

/-- C5: running update with the same target on the workspace left by a
successful update finds everything already canonical: the second run
succeeds, changes nothing on disk, rewrites zero files and observes no
difference. -/
theorem c5_update_idempotent (V : String) (q : Bool) (fs : FS) (r : RunResult)
    (h : run ⟨.update V, q⟩ fs = .ok r) :
    run ⟨.update V, q⟩ ⟨r.root, r.files⟩ = .ok ⟨r.root, r.files, [], false⟩ := by
  rw [run_update_eq] at h
  rw [run_update_eq]
  exact processPass_update_idem h

/-- The C5 root manifest with a shared version. -/
def c5Root : RootDoc :=
  ⟨some ⟨some (.table [("version", .value (.str "0.1.0"))]),
    some (.value (.array [.str "m"]))⟩⟩

/-- The C5 root manifest after the update. -/
def c5RootAfter : RootDoc :=
  ⟨some ⟨some (.table [("version", .value (.str "0.2.0"))]),
    some (.value (.array [.str "m"]))⟩⟩

/-- The C5 member manifest. -/
def c5Member : MemberDoc := ⟨some (.table [("version", .value (.str "0.1.0"))]), none⟩

/-- The C5 member manifest after the update. -/
def c5MemberAfter : MemberDoc := ⟨some (.table [("version", .value (.str "0.2.0"))]), none⟩

/-- The C5 workspace on disk. -/
def c5FS : FS := ⟨c5Root, [("m/Cargo.toml", c5Member)]⟩

/-- The result of the first C5 update run. -/
def c5Result : RunResult :=
  ⟨c5RootAfter, [("m/Cargo.toml", c5MemberAfter)], ["m/Cargo.toml", "Cargo.toml"], true⟩

/-- C5 witness: the idempotence theorem applied to a concrete update
run that rewrote the root and the member. -/
theorem c5_witness :
    run ⟨.update "0.2.0", true⟩ ⟨c5Result.root, c5Result.files⟩ =
      .ok ⟨c5Result.root, c5Result.files, [], false⟩ :=
  c5_update_idempotent "0.2.0" true c5FS c5Result rfl

/-! ## Claim C6: stripping of the leading v -/

/-- The C6 member manifest storing a version that itself starts with v. -/
def c6Member : MemberDoc := ⟨some (.table [("version", .value (.str "v1.2.3"))]), none⟩

/-- The C6 root manifest. -/
def c6Root : RootDoc := ⟨some ⟨none, some (.value (.array [.str "m"]))⟩⟩

/-- The C6 workspace on disk. -/
def c6FS : FS := ⟨c6Root, [("m/Cargo.toml", c6Member)]⟩

/-- C6 counterexample: take S to be v1.2.3, a string that already
starts with v.  The target v followed by S canonicalizes to v1.2.3 and
matches the stored value, while the target S canonicalizes to 1.2.3
and mismatches: the two runs behave differently, so the claim fails
for strings S that begin with v. -/
theorem c6_counterexample :
    stripLeadingV "vv1.2.3" = "v1.2.3" ∧
    run ⟨.check "vv1.2.3", true⟩ c6FS = .ok ⟨c6Root, c6FS.files, [], false⟩ ∧
    run ⟨.check "v1.2.3", true⟩ c6FS = .error "There were differences" := ⟨rfl, rfl, rfl⟩

/-- C6 amended: for every string S that does not begin with v, a run
with target v followed by S behaves identically to a run with target
S, in both modes, on every workspace; and exactly one leading v is
stripped, never more: stripping v followed by any s gives back s. -/
theorem c6_amended_prefix_equivalence (S : String) (h : S.data.head? ≠ some 'v') :
    (∀ (q : Bool) (fs : FS),
      run ⟨.update ("v" ++ S), q⟩ fs = run ⟨.update S, q⟩ fs ∧
      run ⟨.check ("v" ++ S), q⟩ fs = run ⟨.check S, q⟩ fs) ∧
    (∀ s : String, stripLeadingV ("v" ++ s) = s) := by
  have hS : stripLeadingV S = S := by
    unfold stripLeadingV
    split
    next rest heq => exact absurd (by rw [heq]; rfl) h
    next => rfl
  have hvS : stripLeadingV ("v" ++ S) = S := by simp [stripLeadingV]
  refine ⟨?_, fun s => by simp [stripLeadingV]⟩
  intro q fs
  constructor
  · rw [run_update_eq, run_update_eq, hvS, hS]
  · rw [run_check_eq, run_check_eq, hvS, hS]

/-- C6 witness: the amended equivalence applied to the target 1.2.3
and the exact-one-strip equation applied to a string starting with v. -/
theorem c6_witness :
    run ⟨.check ("v" ++ "1.2.3"), true⟩ c6FS = run ⟨.check "1.2.3", true⟩ c6FS ∧
    stripLeadingV ("v" ++ "v9") = "v9" :=
  ⟨((c6_amended_prefix_equivalence "1.2.3" (by decide)).1 true c6FS).2,
   (c6_amended_prefix_equivalence "1.2.3" (by decide)).2 "v9"⟩

/-! ## Claim C7: dependency filtering frame property -/

/-- C7: in every run, in either mode, a dependency entry whose key is
not in the membership set, or whose value is not an inline table (in
particular a bare version string), is never mutated and never written:
in the dependencies table of any member manifest on the final disk,
every such entry is byte-for-byte the entry of the initial disk, at
the same position under the same key. -/
theorem c7_dependency_filtering (target : String) (w : Bool) (fs : FS) (r : RunResult)
    (names : List String) (hn : extractMembers fs.root = .ok names)
    (h : processPass target w fs = .ok r)
    (p : String) (d0 d1 : MemberDoc)
    (h0 : lookupFile fs.files p = some d0) (h1 : lookupFile r.files p = some d1)
    (xs ys : List (String × Item))
    (hx : d0.dependencies = some (.table xs)) (hy : d1.dependencies = some (.table ys)) :
    List.Forall₂ (entryPreserved names) xs ys := by
  obtain ⟨rr, names0, st, e1, e2, e3, e4⟩ := processPass_elim h
  have hn0 : names0 = names := by
    rw [processRoot_members e1, hn] at e2
    injection e2 with e2
    exact e2.symm
  rw [hn0] at e3
  have hfr : filesRel names fs.files st.files := processMembers_filesRel e3
  have hrf : r.files = st.files := by
    rw [e4]
    by_cases hru : (rr.rootUpdated && w) = true <;> simp [hru]
  have hrel := hfr p
  rw [h0] at hrel
  rw [hrf] at h1
  rw [h1] at hrel
  simp only [fileRel] at hrel
  rcases depsOptRel_cases hrel with he | ⟨xs2, ys2, hx2, hy2, hf⟩
  · rw [hy, hx] at he
    injection he with he
    injection he with he
    subst he
    exact List.forall₂_same.mpr fun a _ => entryPreserved_refl names a
  · rw [hx] at hx2
    rw [hy] at hy2
    injection hx2 with hx2
    injection hx2 with hx2
    injection hy2 with hy2
    injection hy2 with hy2
    subst hx2
    subst hy2
    exact hf

/-- The C7 dependencies table: an external dependency pinned through an
inline table, and an internal dependency in bare-string form. -/
def c7Deps : List (String × Item) :=
  [("ext", .value (.inlineTable [("version", .str "9.9.9")])),
   ("m", .value (.str "1.0.0"))]

/-- The C7 member manifest. -/
def c7Member : MemberDoc :=
  ⟨some (.table [("version", .value (.str "1.0.0"))]), some (.table c7Deps)⟩

/-- The C7 member manifest after the update: only the version moved. -/
def c7MemberAfter : MemberDoc :=
  ⟨some (.table [("version", .value (.str "2.0.0"))]), some (.table c7Deps)⟩

/-- The C7 root manifest. -/
def c7Root : RootDoc := ⟨some ⟨none, some (.value (.array [.str "m"]))⟩⟩

/-- The C7 workspace on disk. -/
def c7FS : FS := ⟨c7Root, [("m/Cargo.toml", c7Member)]⟩

/-- The result of the C7 update run. -/
def c7Result : RunResult :=
  ⟨c7Root, [("m/Cargo.toml", c7MemberAfter)], ["m/Cargo.toml"], true⟩

/-- C7 witness: the frame theorem applied to a concrete update run
whose member has an external pinned dependency and a bare-string
internal dependency; both entries survive unchanged. -/
theorem c7_witness : List.Forall₂ (entryPreserved ["m"]) c7Deps c7Deps :=
  c7_dependency_filtering "2.0.0" true c7FS c7Result ["m"] rfl rfl
    "m/Cargo.toml" c7Member c7MemberAfter rfl rfl c7Deps c7Deps rfl rfl

/-! ## Claim C8: check mode never writes -/

/-- C8: a completed verify-mode pass writes no file: the root and all
member manifests on disk are identical before and after the run, and
the list of written paths is empty, even when mismatches are found. -/
theorem c8_check_never_writes (args : Args) (fs : FS) (r : RunResult)
    (hc : args.check = true)
    (h : processPass args.version args.write fs = .ok r) :
    r.root = fs.root ∧ r.files = fs.files ∧ r.writes = [] := by
  have hw : args.write = false := by
    obtain ⟨cmd, q⟩ := args
    cases cmd with
    | update v => exact absurd hc (by simp [Args.check])
    | check v => rfl
  rw [hw] at h
  obtain ⟨h1, h2, h3, -⟩ := processPass_check h
  exact ⟨h1, h2, h3⟩

/-- The C8 member manifest, mismatching the target. -/
def c8Member : MemberDoc := ⟨some (.table [("version", .value (.str "0.1.0"))]), none⟩

/-- The C8 root manifest. -/
def c8Root : RootDoc := ⟨some ⟨none, some (.value (.array [.str "m"]))⟩⟩

/-- The C8 workspace on disk. -/
def c8FS : FS := ⟨c8Root, [("m/Cargo.toml", c8Member)]⟩

/-- The C8 completed pass result: a mismatch is observed, nothing is
written. -/
def c8Result : RunResult := ⟨c8Root, [("m/Cargo.toml", c8Member)], [], true⟩

/-- C8 witness: the theorem applied to a verify run that does find a
mismatch and still leaves the disk untouched. -/
theorem c8_witness :
    c8Result.root = c8FS.root ∧ c8Result.files = c8FS.files ∧ c8Result.writes = [] :=
  c8_check_never_writes ⟨.check "0.2.0", true⟩ c8FS c8Result rfl rfl

/-! ## Claim C9: only inline-table dependency entries are synchronized -/

/-- C9: a dependency on a declared member expressed as a standard
(non-inline) TOML table section is skipped without mutation and
without error, even though it is a structured table containing a
version field: the loop result on the remaining entries is simply
prefixed with the untouched entry and an unchanged flag. -/
theorem c9_standard_table_dep_skipped (lookup : List String) (target k : String)
    (tkvs rest : List (String × Item))
    (hk : lookup.contains k = true) (vi : Item)
    (_hv : tblGet tkvs "version" = some vi) :
    processDeps lookup target ((k, Item.table tkvs) :: rest) =
      (processDeps lookup target rest).map
        (fun p => ((k, Item.table tkvs) :: p.1, p.2)) := by
  simp only [processDeps, processDepEntry]
  rw [if_pos hk]
  show Outcome.bind (processEligibleDep target (Item.table tkvs) none) _ = _
  simp only [processEligibleDep, Outcome.bind]
  cases hr : processDeps lookup target rest <;> simp [Outcome.bind, Outcome.map]

/-- The C9 standard-table dependency attributes, version included. -/
def c9Tkvs : List (String × Item) := [("version", .value (.str "9.9.9"))]

/-- C9 witness: the theorem applied to a member-named dependency whose
value is a standard table holding a version different from the
target: the entry is skipped and no error or change is produced. -/
theorem c9_witness :
    processDeps ["a"] "1.0.0" [("a", Item.table c9Tkvs)] =
      (processDeps ["a"] "1.0.0" []).map
        (fun p => (("a", Item.table c9Tkvs) :: p.1, p.2)) :=
  c9_standard_table_dep_skipped ["a"] "1.0.0" "a" c9Tkvs [] rfl
    (.value (.str "9.9.9")) rfl

/-! ## Claim C10: stored values are never stripped -/

/-- The C10 member manifest storing v1.2.3. -/
def c10Member : MemberDoc := ⟨some (.table [("version", .value (.str "v1.2.3"))]), none⟩

/-- The C10 member manifest after the update: rewritten to 1.2.3. -/
def c10MemberAfter : MemberDoc := ⟨some (.table [("version", .value (.str "1.2.3"))]), none⟩

/-- The C10 root manifest. -/
def c10Root : RootDoc := ⟨some ⟨none, some (.value (.array [.str "m"]))⟩⟩

/-- The C10 workspace on disk. -/
def c10FS : FS := ⟨c10Root, [("m/Cargo.toml", c10Member)]⟩

/-- C10: leading-v stripping applies only to the command-line target,
never to stored manifest values: against the target v1.2.3
(canonicalized to 1.2.3) the stored string v1.2.3 is a mismatch, and
the write-mode run overwrites it with 1.2.3 and rewrites the file. -/
theorem c10_no_strip_on_stored_values :
    check_version (.str "v1.2.3") (Args.version ⟨.update "v1.2.3", false⟩) =
      (.str "1.2.3", true) ∧
    run ⟨.update "v1.2.3", false⟩ c10FS =
      .ok ⟨c10Root, [("m/Cargo.toml", c10MemberAfter)], ["m/Cargo.toml"], true⟩ :=
  ⟨rfl, rfl⟩

end Cwv
